import Mathlib

/-!
Shallow embedding of the preludex crawl engine (src/url.ts, src/crawl.ts,
src/fs.ts, src/md.ts, src/sitemap.ts, src/adapters/*, src/config/sites.ts)
and proofs of the specification claims about it.

JavaScript strings are modelled as Lean `String`/`List Char`; the single
threaded event loop with `await` points is modelled as a small-step machine
whose atomic steps are the synchronous blocks between `await`s, driven by an
arbitrary scheduler.
-/

namespace Preludex

/-! ### Generic helpers -/

/-- Association-list lookup with default 0 (models `Map.get(dir) ?? 0`). -/
def lookupD (m : List (String × Nat)) (k : String) : Nat :=
  match m with
  | [] => 0
  | (k', v) :: rest => if k' = k then v else lookupD rest k

/-- Association-list update (models `Map.set(dir, n)`). -/
def setD (m : List (String × Nat)) (k : String) (v : Nat) : List (String × Nat) :=
  match m with
  | [] => [(k, v)]
  | (k', v') :: rest => if k' = k then (k, v) :: rest else (k', v') :: setD rest k v

/-! ### JS string primitives, modelled on the character list -/

/-- Worker for `jsSplit`: `cur` is the reversed current field. -/
def splitChAux (c : Char) : List Char → List Char → List String
  | cur, [] => [String.mk cur.reverse]
  | cur, x :: xs =>
    if x = c then String.mk cur.reverse :: splitChAux c [] xs
    else splitChAux c (x :: cur) xs

/-- JS `String.prototype.split(c)` for a single-character separator. -/
def jsSplit (c : Char) (s : String) : List String :=
  splitChAux c [] s.data

/-- JS `String.prototype.startsWith(pre)`. -/
def jsStartsWith (s pre : String) : Bool :=
  pre.data.isPrefixOf s.data

/-- JS `String.prototype.endsWith(suf)`. -/
def jsEndsWith (s suf : String) : Bool :=
  suf.data.isSuffixOf s.data

/-- JS `String.prototype.includes(sub)`. -/
def jsIncludes (s sub : String) : Bool :=
  decide (sub.data <:+: s.data)

/-- JS `String.prototype.trim()`. -/
def jsTrim (s : String) : String :=
  String.mk ((s.data.dropWhile Char.isWhitespace).reverse.dropWhile Char.isWhitespace).reverse

/-- JS `String.prototype.toLowerCase()` (ASCII fragment). -/
def jsToLower (s : String) : String :=
  String.mk (s.data.map Char.toLower)

/-- JS `String.prototype.padStart(n, c)`. -/
def padStart (s : String) (n : Nat) (c : Char) : String :=
  if n ≤ s.length then s else String.mk (List.replicate (n - s.length) c) ++ s

/-- JS `Array.prototype.join('/')`. -/
def joinSegs : List String → String
  | [] => ""
  | [s] => s
  | s :: rest => s ++ "/" ++ joinSegs rest

/-! ### URL model

JS `URL` objects are modelled by their components.  `scheme` and `host`
determine the origin; `pathname` always starts with "/"; `search` is empty or
starts with "?"; `hash` is empty or starts with "#". -/

structure URLm where
  scheme : String
  host : String
  pathname : String
  search : String
  hash : String
deriving DecidableEq, Repr, Inhabited

/-- `url.origin`. -/
def URLm.origin (u : URLm) : String := u.scheme ++ "://" ++ u.host

/-- `url.toString()`. -/
def URLm.toStr (u : URLm) : String := u.origin ++ u.pathname ++ u.search ++ u.hash

/-- src/url.ts `normalizePageUrl`: remove hash and search params. -/
def normalizePageUrl (u : URLm) : URLm := { u with hash := "", search := "" }

/-- src/config/patterns.ts `docPatterns`. -/
def docPatterns : List String :=
  ["docs", "documentation", "guide", "guides", "api", "reference"]

/-- Nonempty path segments of a pathname (`pathname.split('/').filter(Boolean)`). -/
def pathSegs (pathname : String) : List String :=
  (jsSplit '/' pathname).filter (fun s => s ≠ "")

/-- src/url.ts `detectBasePath`. -/
def detectBasePath (u : URLm) : Option String :=
  match (pathSegs u.pathname).find? (fun p => docPatterns.contains (jsToLower p)) with
  | some p => some ("/" ++ p ++ "/")
  | none => none

/-- Index just after the first doc-pattern segment (0 when none), as computed by
the `startIndex` loop in src/url.ts `toLocalPath`. -/
def docStartIndex (parts : List String) : Nat :=
  match parts with
  | [] => 0
  | p :: rest =>
    if docPatterns.contains (jsToLower p) then 1
    else match (rest.findIdx? (fun q => docPatterns.contains (jsToLower q))) with
      | some i => i + 2
      | none => 0

/-- src/url.ts `toLocalPath`. -/
def toLocalPath (u : URLm) : String :=
  let parts := pathSegs u.pathname
  let pathParts := parts.drop (docStartIndex parts)
  match pathParts.getLast? with
  | none => "index.md"
  | some file =>
    let dir := joinSegs pathParts.dropLast
    let fileName := file ++ ".md"
    if dir = "" then fileName else dir ++ "/" ++ fileName

/-- src/url.ts `getDirectoryPath` (`lastIndexOf('/')` plus `substring`,
expressed as split/join on the same separator). -/
def getDirectoryPath (filePath : String) : String :=
  let parts := jsSplit '/' filePath
  if parts.length ≤ 1 then "" else joinSegs parts.dropLast

/-- src/url.ts `addNumberedPrefix` with the default `digits = 2`
(`lastIndexOf('/')` plus `substring`, expressed as split/join). -/
def addNumberedPrefixed (filePath : String) (num : Nat) : String :=
  let pre := padStart (toString num) 2 '0'
  let parts := jsSplit '/' filePath
  if parts.length ≤ 1 then pre ++ "-" ++ filePath
  else joinSegs parts.dropLast ++ "/" ++ pre ++ "-" ++ parts.getLast!

/-! ### WHATWG URL parsing (the JS `new URL(raw, base)` used by the sources)

Modelled from the WHATWG URL standard on the reference forms this repository
produces: absolute http(s) URLs, protocol-relative (`//h/p`), path-absolute
(`/p`), query-only, fragment-only, and bare relative paths (resolved against
the base's directory with dot-segment removal).  Host case-folding, ports,
userinfo and percent-encoding are not modelled; the repository's URLs do not
exercise them. -/

/-- Split off the maximal run of characters different from `stop`, requiring
`stop` to follow; returns the run and the suffix after `stop`. -/
def splitAtChar (stop : Char) : List Char → Option (List Char × List Char)
  | [] => none
  | c :: rest =>
    if c = stop then some ([], rest)
    else match splitAtChar stop rest with
      | some (pre, suf) => some (c :: pre, suf)
      | none => none

/-- Split a path-query-fragment tail into (path, search, hash). -/
def splitPSH (cs : List Char) : String × String × String :=
  let path := cs.takeWhile (fun c => c ≠ '?' ∧ c ≠ '#')
  let rest := cs.dropWhile (fun c => c ≠ '?' ∧ c ≠ '#')
  match rest with
  | [] => (String.mk path, "", "")
  | c :: rest2 =>
    if c = '?' then
      let q := rest2.takeWhile (fun c2 => c2 ≠ '#')
      let h := rest2.dropWhile (fun c2 => c2 ≠ '#')
      (String.mk path, String.mk ('?' :: q), String.mk h)
    else (String.mk path, "", String.mk (c :: rest2))

/-- Parse an absolute http(s) URL. -/
def parseAbsURL (s : String) : Option URLm :=
  let go : String → List Char → Option URLm := fun scheme cs =>
    let host := cs.takeWhile (fun c => c ≠ '/' ∧ c ≠ '?' ∧ c ≠ '#')
    let rest := cs.dropWhile (fun c => c ≠ '/' ∧ c ≠ '?' ∧ c ≠ '#')
    if host = [] then none
    else
      match splitPSH rest with
      | (p, q, h) => some ⟨scheme, String.mk host, if p = "" then "/" else p, q, h⟩
  if jsStartsWith s "http://" then go "http" (s.data.drop 7)
  else if jsStartsWith s "https://" then go "https" (s.data.drop 8)
  else none

/-- The base path up to and including its last `/` (the directory the
reference is resolved in). -/
def dirOfPath (p : String) : String :=
  String.mk ((p.data.reverse.dropWhile (fun c => c ≠ '/')).reverse)

/-- WHATWG remove-dot-segments on the `/`-separated segments after the
leading slash (`acc` is the output stack). -/
def rmDotAux : List String → List String → List String
  | acc, [] => acc.reverse
  | acc, ["."] => ("" :: acc).reverse
  | acc, [".."] => ("" :: acc.tail).reverse
  | acc, "." :: rest => rmDotAux acc rest
  | acc, ".." :: rest => rmDotAux acc.tail rest
  | acc, s :: rest => rmDotAux (s :: acc) rest

/-- Remove dot segments from an absolute path. -/
def removeDotSegments (p : String) : String :=
  match jsSplit '/' p with
  | "" :: rest => "/" ++ joinSegs (rmDotAux [] rest)
  | other => joinSegs (rmDotAux [] other)

/-- `new URL(raw, base)` on the reference forms above; `none` models the
constructor throwing. -/
def parseURL (raw : String) (base : URLm) : Option URLm :=
  if jsStartsWith raw "http://" ∨ jsStartsWith raw "https://" then parseAbsURL raw
  else if jsStartsWith raw "//" then parseAbsURL (base.scheme ++ ":" ++ raw)
  else if jsStartsWith raw "/" then
    match splitPSH raw.data with
    | (p, q, h) => some ⟨base.scheme, base.host, removeDotSegments p, q, h⟩
  else if jsStartsWith raw "#" then some { base with hash := raw }
  else if jsStartsWith raw "?" then
    match splitPSH raw.data with
    | (_, q, h) => some { base with search := q, hash := h }
  else if jsIncludes raw ":" then none
  else
    match splitPSH raw.data with
    | (p, q, h) =>
      some ⟨base.scheme, base.host, removeDotSegments (dirOfPath base.pathname ++ p), q, h⟩

/-! ### Link extractor (src/md.ts) -/

/-- Match the markdown-link regex `\[[^\]]+\]\(([^)]+)\)` anchored at the
current position; both character classes are greedy runs ended by the literal
that follows, so matching is deterministic.  Returns the captured target and
the suffix after the match. -/
def matchMdAt (cs : List Char) : Option (String × List Char) :=
  match cs with
  | '[' :: rest =>
    match splitAtChar ']' rest with
    | some (txt, rest2) =>
      if txt = [] then none
      else match rest2 with
        | '(' :: rest3 =>
          match splitAtChar ')' rest3 with
          | some (tgt, rest4) => if tgt = [] then none else some (String.mk tgt, rest4)
          | none => none
        | _ => none
    | none => none
  | _ => none

/-- Maximal run of characters that are not a single or double quote,
followed by either quote. -/
def splitAtQuote : List Char → Option (List Char × List Char)
  | [] => none
  | c :: rest =>
    if c = '"' ∨ c = Char.ofNat 39 then some ([], rest)
    else match splitAtQuote rest with
      | some (pre, suf) => some (c :: pre, suf)
      | none => none

/-- Match the href regex `href=["\x27]([^"\x27]+)["\x27]` anchored at the
current position. -/
def matchHrefAt (cs : List Char) : Option (String × List Char) :=
  match cs with
  | 'h' :: 'r' :: 'e' :: 'f' :: '=' :: q :: rest =>
    if q = '"' ∨ q = Char.ofNat 39 then
      match splitAtQuote rest with
      | some (tgt, rest2) => if tgt = [] then none else some (String.mk tgt, rest2)
      | none => none
    else none
  | _ => none

/-- `content.matchAll(regex)`: scan left to right, resuming after each
match; `fuel` bounds the recursion by the input length. -/
def scanAll (matchAt : List Char → Option (String × List Char)) :
    Nat → List Char → List String
  | 0, _ => []
  | _, [] => []
  | fuel + 1, c :: rest =>
    match matchAt (c :: rest) with
    | some (tgt, rest2) => tgt :: scanAll matchAt fuel rest2
    | none => scanAll matchAt fuel rest

/-- src/md.ts `ExtractLinksOptions`. -/
structure ExtractLinksOptions where
  basePath : Option String
  includeExternal : Bool
deriving Repr, Inhabited

/-- The default (empty) options object. -/
def defaultExtractOptions : ExtractLinksOptions := ⟨none, false⟩

/-- Non-document extensions excluded by `extractDocLinks`. -/
def assetExts : List String :=
  ["png", "jpg", "jpeg", "gif", "svg", "pdf", "zip", "tar", "gz"]

/-- `rawUrl.pathname.match(/\.(png|jpg|jpeg|gif|svg|pdf|zip|tar|gz)$/i)`. -/
def hasAssetExt (pathname : String) : Bool :=
  assetExts.any (fun e => jsEndsWith (jsToLower pathname) ("." ++ e))

/-- The per-match body of src/md.ts `extractDocLinks`: filter and normalize
one raw target, inserting into the ordered set (`acc`, keyed by the
serialized URL as the JS `Set<string>` is). -/
def processRaw (base : URLm) (basePath : Option String) (includeExternal : Bool)
    (acc : List URLm) (raw0 : String) : List URLm :=
  let raw := jsTrim ((jsSplit '#' raw0).headD "")
  if raw = "" ∨ jsStartsWith raw "mailto:" ∨ jsStartsWith raw "javascript:"
      ∨ jsStartsWith raw "#" then acc
  else if jsStartsWith raw "<" ∨ jsStartsWith raw "%3C"
      ∨ jsIncludes raw "%3E" ∨ jsIncludes raw "%3C" then acc
  else match parseURL raw base with
    | none => acc
    | some rawUrl =>
      if jsIncludes rawUrl.host "shields.io" ∨ jsIncludes rawUrl.host "badge"
          ∨ jsIncludes rawUrl.host "img." then acc
      else if rawUrl.origin ≠ base.origin ∧ includeExternal = false then acc
      else if (match basePath with
          | some bp => !(jsStartsWith rawUrl.pathname bp)
          | none => false) then acc
      else if hasAssetExt rawUrl.pathname then acc
      else
        let u := normalizePageUrl rawUrl
        if acc.any (fun v => v.toStr = u.toStr) then acc else acc ++ [u]

/-- src/md.ts `extractDocLinks`: markdown-link matches first, then href
matches, each filtered and normalized; first-occurrence order, de-duplicated
by serialized URL. -/
def extractDocLinks (content : String) (base : URLm)
    (opts : ExtractLinksOptions) : List URLm :=
  let basePath := match opts.basePath with
    | some bp => if bp = "" then detectBasePath base else some bp
    | none => detectBasePath base
  let raws := scanAll matchMdAt content.data.length content.data
    ++ scanAll matchHrefAt content.data.length content.data
  raws.foldl (processRaw base basePath opts.includeExternal) []

/-! ### Sitemap reader (src/sitemap.ts) -/

/-- Match `<url>\s*<loc>([^<]+)<\/loc>` anchored at the current position. -/
def matchUrlLocAt (cs : List Char) : Option (String × List Char) :=
  match cs with
  | '<' :: 'u' :: 'r' :: 'l' :: '>' :: rest =>
    let rest2 := rest.dropWhile Char.isWhitespace
    if ("<loc>").data.isPrefixOf rest2 then
      match splitAtChar '<' (rest2.drop 5) with
      | some (loc, after) =>
        if loc ≠ [] ∧ ("/loc>").data.isPrefixOf after then
          some (String.mk loc, after.drop 5)
        else none
      | none => none
    else none
  | _ => none

/-- src/sitemap.ts `extractSitemapUrls`: the `<loc>` values of `<url>`
entries, trimmed and parsed (`new URL` without a base accepts only absolute
URLs; parse failures are skipped). -/
def extractSitemapUrls (xml : String) : List URLm :=
  (scanAll matchUrlLocAt xml.data.length xml.data).filterMap
    (fun loc => parseAbsURL (jsTrim loc))

/-- src/sitemap.ts `filterByBasePath`. -/
def filterByBasePath (urls : List URLm) (basePath : String) : List URLm :=
  urls.filter (fun u => jsStartsWith u.pathname basePath)

/-! ### chunkArray (src/crawl.ts) -/

/-- src/crawl.ts `chunkArray`: split an array into `size`-sized slices.
(`size = 0` makes the JS loop diverge; it is mapped to `[]` here and never
used with `size = 0`.) -/
def chunkArray {α : Type} : List α → Nat → List (List α)
  | [], _ => []
  | _ :: _, 0 => []
  | a :: l, (n+1) => (a :: l).take (n+1) :: chunkArray ((a :: l).drop (n+1)) (n+1)
termination_by l _ => l.length
decreasing_by
  simp only [List.length_drop]
  simp only [List.length_cons]
  omega

/-! ### File writer (src/fs.ts) with the Node `path` module

Absolute paths are modelled as lists of segments; `cwd` is the process
working directory.  `normSegs` is the segment normalization performed by
`path.resolve` on a POSIX path: empty and `.` segments are dropped, `..` pops
the previous segment (and is dropped at the root).  The accumulator holds the
output in reverse (a stack). -/

def normSegs : List String → List String → List String
  | acc, [] => acc.reverse
  | acc, s :: rest =>
    if s = "" ∨ s = "." then normSegs acc rest
    else if s = ".." then normSegs acc.tail rest
    else normSegs (s :: acc) rest

/-- Node `path.resolve(base, p)` where `base` is an already-resolved absolute
directory: an absolute `p` is normalized on its own, a relative `p` is
normalized on top of `base`. -/
def resolveFrom (base : List String) (p : String) : List String :=
  if jsStartsWith p "/" then normSegs [] (jsSplit '/' p)
  else normSegs base.reverse (jsSplit '/' p)

/-- Strip the longest common prefix of two segment lists, returning the two
remainders (the core of Node `path.relative`). -/
def stripCommon : List String → List String → List String × List String
  | a :: as, b :: bs => if a = b then stripCommon as bs else (a :: as, b :: bs)
  | as, bs => (as, bs)

/-- Node `path.relative(fromP, toP)` on resolved absolute segment lists:
one `..` per remaining `fromP` segment, then the remaining `toP` segments. -/
def nodeRelative (fromP toP : List String) : String :=
  joinSegs (List.replicate (stripCommon fromP toP).1.length ".." ++ (stripCommon fromP toP).2)

/-- src/fs.ts `validatePath`: `true` means the path is accepted
(`relativePath` in the source is `nodeRelative` of the two resolutions). -/
def validatePath (cwd : List String) (filePath baseDir : String) : Bool :=
  !(jsStartsWith (nodeRelative (resolveFrom cwd baseDir) (resolveFrom cwd filePath)) ".."
    || decide (resolveFrom (resolveFrom cwd baseDir)
          (nodeRelative (resolveFrom cwd baseDir) (resolveFrom cwd filePath))
        ≠ resolveFrom cwd filePath))

/-- `path.split('/')[0] || '.'` -/
def baseDirOf (path : String) : String :=
  if (jsSplit '/' path).headD "" = "" then "." else (jsSplit '/' path).headD ""

/-- src/fs.ts `saveFile`: derives the validation base from the path's first
segment, validates, then creates directories and writes.  A successful write
is modelled by returning the resolved absolute path that is written. -/
def saveFile (cwd : List String) (path : String) : Except String (List String) :=
  if validatePath cwd path (baseDirOf path) then Except.ok (resolveFrom cwd path)
  else Except.error ("Path traversal detected: " ++ path)

/-- A resolved path is inside a directory when the directory's segments are a
prefix of the path's segments.  The spec's "escapes the output root" is the
negation. -/
abbrev insideDir (dir target : List String) : Prop :=
  dir <+: target

/-- Segment hygiene for the C5 amended theorem: a real path segment that is
nonempty, not `.`, does not begin with the two characters `..`, and contains
no separator. -/
def CleanSeg (s : String) : Prop :=
  s ≠ "" ∧ s ≠ "." ∧ jsStartsWith s ".." = false ∧ '/' ∉ s.data

/-! ### Adapter chain (src/adapters/index.ts, md-endpoint.ts, mdx.ts)

Each adapter's `fetchMarkdown` is an effectful call; its outcome for the
crawled URL is an oracle value (`Except` = resolve/reject).  The chain logic
itself is embedded exactly. -/

/-- src/adapters/md-endpoint.ts `MD_ENDPOINT_DOMAINS`. -/
def MD_ENDPOINT_DOMAINS : List String :=
  ["docs.anthropic.com", "docs.claude.com", "code.claude.com", "developers.openai.com"]

/-- src/adapters/md-endpoint.ts `supportsMdEndpoint`. -/
def supportsMdEndpoint (hostname : String) : Bool :=
  MD_ENDPOINT_DOMAINS.any (fun domain => hostname = domain || jsEndsWith hostname ("." ++ domain))

/-- src/adapters/mdx.ts `MDX_SITES`. -/
def MDX_SITES : List String :=
  ["platform.claude.com", "docs.anthropic.com", "vercel.com", "nextjs.org"]

/-- src/adapters/mdx.ts `mdxAdapter.match`. -/
def mdxMatchHost (hostname : String) : Bool :=
  MDX_SITES.any (fun site => hostname = site || jsEndsWith hostname ("." ++ site))

/-- An HTTP response as seen by the md-endpoint adapter. -/
structure HttpResponse where
  ok : Bool
  status : Nat
  contentType : String
  body : String
deriving DecidableEq, Repr, Inhabited

/-- The validation part of src/adapters/md-endpoint.ts `fetchMdEndpoint`,
applied to the response of the `.md` request. -/
def fetchMdEndpointCheck (mdUrlStr : String) (res : HttpResponse) : Except String String :=
  if !res.ok then Except.error ("Fetch failed: " ++ toString res.status ++ " " ++ mdUrlStr)
  else if jsIncludes res.contentType "application/json" then
    Except.error "Received JSON instead of Markdown"
  else if jsIncludes res.contentType "text/html" && !(jsIncludes res.contentType "text/markdown") then
    Except.error "Received HTML instead of Markdown (Content-Type)"
  else if jsStartsWith (jsToLower (jsTrim res.body)) "<!doctype"
      || jsStartsWith (jsToLower (jsTrim res.body)) "<html"
      || jsStartsWith (jsToLower (jsTrim res.body)) "<head"
      || jsStartsWith (jsToLower (jsTrim res.body)) "<body" then
    Except.error "Received HTML instead of Markdown"
  else if jsStartsWith (jsTrim res.body) "\x7b" || jsStartsWith (jsTrim res.body) "[" then
    Except.error "Received JSON instead of Markdown"
  else if (jsTrim res.body).length < 10 then
    Except.error "Response too short to be valid Markdown"
  else Except.ok res.body

/-- `pathname.replace(/\/$/, '')`. -/
def stripTrailingSlash (p : String) : String :=
  if jsEndsWith p "/" then String.mk p.data.dropLast else p

/-- The `.md` URL constructed by src/adapters/md-endpoint.ts `fetchMdEndpoint`. -/
def mdEndpointUrl (url : URLm) : URLm :=
  if jsEndsWith url.pathname ".md" then url
  else { url with pathname := stripTrailingSlash url.pathname ++ ".md" }

/-- src/adapters/md-endpoint.ts `fetchMdEndpoint` with the HTTP fetch as an
oracle from URL strings to responses. -/
def fetchMdEndpoint (url : URLm) (http : String → HttpResponse) : Except String String :=
  fetchMdEndpointCheck (mdEndpointUrl url).toStr (http (mdEndpointUrl url).toStr)

/-- Outcomes of the four adapters for the URL being fetched, plus the URL
facts the chain consults. -/
structure AdapterEnv where
  mdEndpointRes : Except String String
  mdxRes : Except String String
  jinaRes : Except String String
  playwrightRes : Except String String
  hostname : String
  urlStr : String
deriving Repr, Inhabited

/-- The chain-relevant options of `CrawlOptions`. -/
structure ChainOpts where
  useMdEndpoint : Bool
  useJina : Bool
deriving DecidableEq, Repr, Inhabited

/-- The aggregate failure message of src/adapters/index.ts `fetchWithFallback`. -/
def renderErrors (urlStr : String) (errors : List (String × String)) : String :=
  "All adapters failed for " ++ urlStr ++ ":\n" ++
    String.intercalate "\n" (errors.map (fun e => e.1 ++ ": " ++ e.2))

/-- Step 4 of `fetchWithFallback`: the Playwright adapter (default/fallback). -/
def fwfPlaywright (env : AdapterEnv) (errs : List (String × String)) :
    Except String (String × String) :=
  match env.playwrightRes with
  | Except.ok c => Except.ok (c, "playwright")
  | Except.error e => Except.error (renderErrors env.urlStr (errs ++ [("playwright", e)]))

/-- Step 3 of `fetchWithFallback`: Jina Reader, only when opted in. -/
def fwfJina (env : AdapterEnv) (opts : ChainOpts) (errs : List (String × String)) :
    Except String (String × String) :=
  if opts.useJina then
    match env.jinaRes with
    | Except.ok c => Except.ok (c, "jina")
    | Except.error e => fwfPlaywright env (errs ++ [("jina", e)])
  else fwfPlaywright env errs

/-- Step 2 of `fetchWithFallback`: the site-specific MDX adapter. -/
def fwfMdx (env : AdapterEnv) (opts : ChainOpts) (errs : List (String × String)) :
    Except String (String × String) :=
  if mdxMatchHost env.hostname then
    match env.mdxRes with
    | Except.ok c => Except.ok (c, "mdx")
    | Except.error e => fwfJina env opts (errs ++ [("mdx", e)])
  else fwfJina env opts errs

/-- src/adapters/index.ts `fetchWithFallback`: md-endpoint (when forced or
auto-detected), then MDX, then Jina (opt-in), then Playwright; first success
wins, and if every attempted adapter failed the aggregate error lists each
attempted adapter's name and error in order. -/
def fetchWithFallback (env : AdapterEnv) (opts : ChainOpts) :
    Except String (String × String) :=
  if opts.useMdEndpoint || supportsMdEndpoint env.hostname then
    match env.mdEndpointRes with
    | Except.ok c => Except.ok (c, "md-endpoint")
    | Except.error e => fwfMdx env opts [("md-endpoint", e)]
  else fwfMdx env opts []

/-- The md-endpoint step does not produce the result: it is skipped (neither
forced nor auto-detected) or its fetch failed. -/
def mdSkipOrFail (env : AdapterEnv) (opts : ChainOpts) : Prop :=
  (opts.useMdEndpoint || supportsMdEndpoint env.hostname) = false ∨
    ∃ e, env.mdEndpointRes = Except.error e

/-- The MDX step does not produce the result. -/
def mdxSkipOrFail (env : AdapterEnv) : Prop :=
  mdxMatchHost env.hostname = false ∨ ∃ e, env.mdxRes = Except.error e

/-- The Jina step does not produce the result. -/
def jinaSkipOrFail (env : AdapterEnv) (opts : ChainOpts) : Prop :=
  opts.useJina = false ∨ ∃ e, env.jinaRes = Except.error e

/-- The (adapter, error) records accumulated by the chain before the final
Playwright attempt: one entry per attempted-and-failed adapter, in attempt
order. -/
def chainErrs (env : AdapterEnv) (opts : ChainOpts) : List (String × String) :=
  (if opts.useMdEndpoint || supportsMdEndpoint env.hostname then
    match env.mdEndpointRes with
    | Except.error e => [("md-endpoint", e)]
    | Except.ok _ => []
  else []) ++
  (if mdxMatchHost env.hostname then
    match env.mdxRes with
    | Except.error e => [("mdx", e)]
    | Except.ok _ => []
  else []) ++
  (if opts.useJina then
    match env.jinaRes with
    | Except.error e => [("jina", e)]
    | Except.ok _ => []
  else [])

/-! ### Crawl orchestrator (src/crawl.ts)

`crawl` runs on a single-threaded event loop: the code between two `await`
points executes atomically, and concurrency (bounded by `p-limit` and the
batch structure) only interleaves these atomic blocks.  The machine below has
one task per in-flight batch item; a task advances through
`start → fetched → saving → done`, each arrow being one atomic block of the
source.  An arbitrary scheduler (a list of task choices) selects the
interleaving; batch loading requires the previous batch to be finished, as
`await Promise.all` does.  The per-URL outcome of `fetchWithFallback`,
`saveFile` and `extractDocLinks`/`toLocalPath` (pure functions of the URL via
its fetched content) are environment oracles on URL strings.  `fetchLog`,
`assigned`, `written` and `savedUrls` are ghost logs recording events. -/

/-- Outcome of `fetchWithFallback` for one URL: success, a thrown
`BlockedContentError`, or any other rejection. -/
inductive FetchRes
  | ok (content : String)
  | blocked (reason : String)
  | err (msg : String)
deriving DecidableEq, Repr, Inhabited

/-- Per-URL oracles for one crawl invocation. -/
structure CrawlEnv where
  fetch : String → FetchRes
  save : String → Bool
  links : String → List String
  toLocal : String → String

/-- The options `crawl` consults. -/
structure CrawlCfg where
  outDir : String
  concurrency : Nat
  maxDepth : Nat
  numbered : Bool
  linkMode : Bool
deriving DecidableEq, Repr, Inhabited

/-- `options.concurrency || 3`. -/
def effConc (cfg : CrawlCfg) : Nat :=
  if cfg.concurrency = 0 then 3 else cfg.concurrency

/-- A frontier entry. -/
structure Item where
  url : String
  depth : Nat
deriving DecidableEq, Repr, Inhabited

/-- A numbered-counter assignment: `num` was drawn for directory `dir` and
used in output path `path` for page `url`. -/
structure Assign where
  dir : String
  num : Nat
  path : String
  url : String
deriving DecidableEq, Repr, Inhabited

/-- Task state: the program counter of one batch item between `await`s. -/
inductive TaskSt
  | start (it : Item)
  | fetched (it : Item) (r : FetchRes)
  | saving (it : Item) (path : String) (asg : Option Assign)
  | done
deriving DecidableEq, Repr, Inhabited

/-- Machine state: the orchestrator's mutable collections plus ghost logs. -/
structure MSt where
  visited : List String
  queuedSet : List String
  queue : List Item
  tasks : List TaskSt
  counters : List (String × Nat)
  assigned : List Assign
  written : List Assign
  savedUrls : List String
  fetchLog : List String
  blockedRec : List (String × String)
  failedRec : List String
deriving DecidableEq, Repr, Inhabited

/-- Atomic block 1 (task begins): visited check-and-mark, then the
`fetchWithFallback` call is issued (its result is the oracle's value). -/
def taskStart (env : CrawlEnv) (s : MSt) (i : Nat) (it : Item) : MSt :=
  if it.url ∈ s.visited then { s with tasks := s.tasks.set i TaskSt.done }
  else
    { s with
      visited := it.url :: s.visited
      fetchLog := s.fetchLog ++ [it.url]
      tasks := s.tasks.set i (TaskSt.fetched it (env.fetch it.url)) }

/-- Atomic block 2 (fetch resolved): on success compute the local path, draw
the sequence number when numbering is on, and issue `saveFile`; on a
`BlockedContentError` record Blocked; on any other rejection record Failed. -/
def taskFetched (cfg : CrawlCfg) (env : CrawlEnv) (s : MSt) (i : Nat) (it : Item) :
    FetchRes → MSt
  | FetchRes.ok _ =>
    if cfg.numbered then
      { s with
        counters := setD s.counters (getDirectoryPath (env.toLocal it.url))
          (lookupD s.counters (getDirectoryPath (env.toLocal it.url)) + 1)
        assigned := s.assigned ++
          [⟨getDirectoryPath (env.toLocal it.url),
            lookupD s.counters (getDirectoryPath (env.toLocal it.url)) + 1,
            cfg.outDir ++ "/" ++ addNumberedPrefixed (env.toLocal it.url)
              (lookupD s.counters (getDirectoryPath (env.toLocal it.url)) + 1),
            it.url⟩]
        tasks := s.tasks.set i (TaskSt.saving it
          (cfg.outDir ++ "/" ++ addNumberedPrefixed (env.toLocal it.url)
            (lookupD s.counters (getDirectoryPath (env.toLocal it.url)) + 1))
          (some ⟨getDirectoryPath (env.toLocal it.url),
            lookupD s.counters (getDirectoryPath (env.toLocal it.url)) + 1,
            cfg.outDir ++ "/" ++ addNumberedPrefixed (env.toLocal it.url)
              (lookupD s.counters (getDirectoryPath (env.toLocal it.url)) + 1),
            it.url⟩)) }
    else
      { s with tasks := s.tasks.set i (TaskSt.saving it
          (cfg.outDir ++ "/" ++ env.toLocal it.url) none) }
  | FetchRes.blocked reason =>
    { s with
      blockedRec := s.blockedRec ++ [(it.url, reason)]
      tasks := s.tasks.set i TaskSt.done }
  | FetchRes.err _ =>
    { s with
      failedRec := s.failedRec ++ [it.url]
      tasks := s.tasks.set i TaskSt.done }

/-- The enqueue loop of step 4 (link mode): push each extracted link that is
neither visited nor queued, marking it queued. -/
def enqueueLinks (ls : List String) (d : Nat) (visited : List String) :
    List Item × List String → List Item × List String :=
  fun start => ls.foldl (fun acc l =>
    if l ∈ visited ∨ l ∈ acc.2 then acc
    else (acc.1 ++ [⟨l, d⟩], l :: acc.2)) start

/-- Atomic block 3 (save resolved): on success record the write and, in link
mode below the depth bound, extract and enqueue new links; a save rejection is
caught by the same per-item catch and recorded as Failed. -/
def taskSaving (cfg : CrawlCfg) (env : CrawlEnv) (s : MSt) (i : Nat) (it : Item)
    (path : String) (asg : Option Assign) : MSt :=
  if env.save path then
    if cfg.linkMode = true ∧ it.depth < cfg.maxDepth then
      { s with
        written := s.written ++ asg.toList
        savedUrls := s.savedUrls ++ [it.url]
        tasks := s.tasks.set i TaskSt.done
        queue := (enqueueLinks (env.links it.url) (it.depth + 1) s.visited
          (s.queue, s.queuedSet)).1
        queuedSet := (enqueueLinks (env.links it.url) (it.depth + 1) s.visited
          (s.queue, s.queuedSet)).2 }
    else
      { s with
        written := s.written ++ asg.toList
        savedUrls := s.savedUrls ++ [it.url]
        tasks := s.tasks.set i TaskSt.done }
  else
    { s with
      failedRec := s.failedRec ++ [it.url]
      tasks := s.tasks.set i TaskSt.done }

/-- Advance task `i` by one atomic block. -/
def stepTask (cfg : CrawlCfg) (env : CrawlEnv) (s : MSt) (i : Nat) : MSt :=
  match s.tasks.get? i with
  | none => s
  | some TaskSt.done => s
  | some (TaskSt.start it) => taskStart env s i it
  | some (TaskSt.fetched it r) => taskFetched cfg env s i it r
  | some (TaskSt.saving it path asg) => taskSaving cfg env s i it path asg

/-- Dequeue the next batch (`queue.splice(0, concurrency || 3)` in link mode,
the next `chunkArray` chunk in sitemap mode) once the previous `Promise.all`
has settled. -/
def loadBatch (cfg : CrawlCfg) (s : MSt) : MSt :=
  if (∀ t ∈ s.tasks, t = TaskSt.done) ∧ s.queue ≠ [] then
    { s with
      tasks := (s.queue.take (effConc cfg)).map TaskSt.start
      queue := s.queue.drop (effConc cfg) }
  else s

/-- One scheduler step: advance the chosen in-flight task, or load a batch. -/
def mstep (cfg : CrawlCfg) (env : CrawlEnv) (s : MSt) (c : Nat) : MSt :=
  if c < s.tasks.length then stepTask cfg env s c else loadBatch cfg s

/-- Run the machine under a schedule. -/
def mrun (cfg : CrawlCfg) (env : CrawlEnv) (s0 : MSt) (sched : List Nat) : MSt :=
  sched.foldl (mstep cfg env) s0

/-- The output path `crawlWithLinks` writes the entry page to. -/
def entrySavePath (cfg : CrawlCfg) (env : CrawlEnv) (entry : String) : String :=
  if cfg.numbered then
    cfg.outDir ++ "/" ++ addNumberedPrefixed (env.toLocal entry) 1
  else cfg.outDir ++ "/" ++ env.toLocal entry

/-- src/crawl.ts `crawlWithLinks` before its BFS loop: the entry page is
fetched and saved sequentially with no surrounding try/catch — a fetch
rejection (including `BlockedContentError`) or a save rejection propagates —
then the extracted links seed the queue (at depth 1 only when `maxDepth > 0`)
and the queued set. -/
def initLink (cfg : CrawlCfg) (env : CrawlEnv) (entry : String) : Except String MSt :=
  match env.fetch entry with
  | FetchRes.blocked reason => Except.error ("BlockedContentError: " ++ reason)
  | FetchRes.err msg => Except.error msg
  | FetchRes.ok _ =>
    if env.save (entrySavePath cfg env entry) then
      Except.ok
        { visited := [entry]
          queuedSet := (env.links entry).filter (fun l => l ≠ entry)
          queue := if 0 < cfg.maxDepth then
              ((env.links entry).filter (fun l => l ≠ entry)).map (fun l => ⟨l, 1⟩)
            else []
          tasks := []
          counters := if cfg.numbered then
              setD [] (getDirectoryPath (env.toLocal entry)) 1
            else []
          assigned := if cfg.numbered then
              [⟨getDirectoryPath (env.toLocal entry), 1, entrySavePath cfg env entry, entry⟩]
            else []
          written := if cfg.numbered then
              [⟨getDirectoryPath (env.toLocal entry), 1, entrySavePath cfg env entry, entry⟩]
            else []
          savedUrls := [entry]
          fetchLog := [entry]
          blockedRec := []
          failedRec := [] }
    else Except.error ("saveFile rejected: " ++ entrySavePath cfg env entry)

/-- src/crawl.ts `crawlWithLinks`: entry processing, then the BFS loop under
an arbitrary schedule. -/
def crawlLinks (cfg : CrawlCfg) (env : CrawlEnv) (entry : String) (sched : List Nat) :
    Except String MSt :=
  (initLink cfg env entry).map (fun s0 => mrun cfg env s0 sched)

/-- The machine state seeded with the sitemap's URL list. -/
def initSitemap (urls : List String) : MSt :=
  { visited := []
    queuedSet := []
    queue := urls.map (fun u => ⟨u, 0⟩)
    tasks := []
    counters := []
    assigned := []
    written := []
    savedUrls := []
    fetchLog := []
    blockedRec := []
    failedRec := [] }

/-- src/crawl.ts `crawlWithSitemap`: throws when no sitemap URL is found or
when parsing the root sitemap rejects; otherwise processes the (already
base-path-filtered) URL list in `concurrency`-sized batches.  Batch items run
the same per-item pipeline; link extraction never happens (`linkMode` is
false in this mode). -/
def crawlSitemap (cfg : CrawlCfg) (env : CrawlEnv) (findRes : Option String)
    (parse : String → Except String (List String)) (sched : List Nat) :
    Except String MSt :=
  match findRes with
  | none => Except.error "No sitemap found"
  | some su =>
    match parse su with
    | Except.error e => Except.error e
    | Except.ok urls => Except.ok (mrun cfg env (initSitemap urls) sched)

/-- src/crawl.ts `crawl`: dispatch on mode (the `try`/`finally` around it
only releases the browser and rethrows). -/
def crawl (cfg : CrawlCfg) (env : CrawlEnv) (entry : String) (findRes : Option String)
    (parse : String → Except String (List String)) (sched : List Nat) :
    Except String MSt :=
  if cfg.linkMode then crawlLinks cfg env entry sched
  else crawlSitemap cfg env findRes parse sched

/-- URLs whose fetch outcome is still undetermined (tasks between the fetch
call and its classification). -/
def inflightUrl : TaskSt → Option String
  | TaskSt.fetched it _ => some it.url
  | TaskSt.saving it _ _ => some it.url
  | _ => none

/-- Counter assignments whose save is still in flight. -/
def pendingAssign : TaskSt → Option Assign
  | TaskSt.saving _ _ (some a) => some a
  | _ => none

/-- Discovery chains: `Chain env entry u n` holds when `u` is reachable from
the entry page in `n` link-extraction hops. -/
inductive Chain (env : CrawlEnv) (entry : String) : String → Nat → Prop
  | zero : Chain env entry entry 0
  | succ {u : String} {n : Nat} {v : String} :
      Chain env entry u n → v ∈ env.links u → Chain env entry v (n + 1)

/-- A terminal state: the frontier is empty and the last batch has settled. -/
def Terminal (s : MSt) : Prop :=
  (∀ t ∈ s.tasks, t = TaskSt.done) ∧ s.queue = []

/-- Fetch-at-most-once invariant: the fetch log has no duplicates, and every
fetched URL has been marked visited. -/
def InvFetch (s : MSt) : Prop :=
  s.fetchLog.Nodup ∧ ∀ u ∈ s.fetchLog, u ∈ s.visited

/-- Outcome accounting: every fetched URL is saved, blocked, failed, or still
in flight — no outcome is lost, whatever the fetch and save oracles do. -/
def InvAcct (s : MSt) : Prop :=
  ∀ u : String, s.fetchLog.count u
    = s.savedUrls.count u + (s.blockedRec.map Prod.fst).count u
      + s.failedRec.count u + (s.tasks.filterMap inflightUrl).count u

/-- The frontier item a task is processing, when it has one. -/
def taskItem : TaskSt → Option Item
  | TaskSt.start it => some it
  | TaskSt.fetched it _ => some it
  | TaskSt.saving it _ _ => some it
  | TaskSt.done => none

/-- A well-formed frontier item of a link-mode run: enqueued at depth between
1 and the bound, and discovered by a chain of that length. -/
def ItemOk (cfg : CrawlCfg) (env : CrawlEnv) (entry : String) (it : Item) : Prop :=
  1 ≤ it.depth ∧ it.depth ≤ cfg.maxDepth ∧ Chain env entry it.url it.depth

/-- Depth invariant (link mode): every queued or in-flight item is
well-formed, and every fetched URL has a discovery chain within the bound. -/
def InvDepth (cfg : CrawlCfg) (env : CrawlEnv) (entry : String) (s : MSt) : Prop :=
  (∀ it ∈ s.queue, ItemOk cfg env entry it) ∧
  (∀ t ∈ s.tasks, ∀ it, taskItem t = some it → ItemOk cfg env entry it) ∧
  (∀ u ∈ s.fetchLog, ∃ n, n ≤ cfg.maxDepth ∧ Chain env entry u n)

/-- Numbering invariant: per directory the assigned numbers are exactly
`1..counter` in assignment order; pending and completed writes use recorded
assignments. -/
def InvNum (s : MSt) : Prop :=
  (∀ dir, ((s.assigned.filter (fun a => a.dir = dir)).map (fun a => a.num))
      = List.range' 1 (lookupD s.counters dir)) ∧
  (∀ t ∈ s.tasks, ∀ a, pendingAssign t = some a → a ∈ s.assigned) ∧
  (∀ a ∈ s.written, a ∈ s.assigned)

/-- Write accounting (valid when every save succeeds): each assignment is
either written or still in flight. -/
def InvNumAcct (s : MSt) : Prop :=
  ∀ a : Assign, s.assigned.count a
    = s.written.count a + (s.tasks.filterMap pendingAssign).count a

/-- Concrete numbered link-mode fixture used by witnesses. -/
def exCfgNum : CrawlCfg := ⟨"docs", 2, 1, true, true⟩

/-- Environment of the fixture: every fetch and save succeeds, the entry
links to one page. -/
def exEnvNum : CrawlEnv :=
  ⟨fun _ => FetchRes.ok "c", fun _ => true,
    fun u => if u = "E" then ["A"] else [], fun u => u ++ ".md"⟩

/-- Final state of the fixture run. -/
def exStateNum : MSt :=
  mrun exCfgNum exEnvNum ((initLink exCfgNum exEnvNum "E").toOption.getD default)
    [0, 0, 0, 0]

/-! ### Framework auto-detection (config/sites.ts, adapters/playwright.ts)

detectFrameworkFromPage runs inside the live page: for each entry of the
frameworkPatterns table it adds the full weight for every CSS selector that
document.querySelector finds (the catch branch makes an invalid selector
count as absent) and half the weight for every HTML regex that matches
document.documentElement.outerHTML; regexes cross the page boundary
serialized as their source strings. Only positive scores enter the record,
in table order; the winner is picked by strict comparison, starting from
('custom', 0), and the confidence is min(maxScore / 30, 1) (0 when nothing
scored). All table weights are 10, so the JavaScript division weight / 2 is
exact and Nat division is faithful. -/

structure FrameworkPattern where
  framework : String
  selectors : List String
  htmlPatterns : List String
  weight : Nat
deriving DecidableEq, Repr, Inhabited

/-- frameworkPatterns table of config/sites.ts; htmlPatterns entries are the
regex source strings (flags are dropped by the .source serialization the
page-side detector performs). -/
def frameworkPatterns : List FrameworkPattern :=
  [⟨"docusaurus",
    [".theme-doc-markdown", ".docusaurus-highlight-code-line",
     ".navbar__brand", ".menu__link", "[class*=\"docusaurus\"]",
     ".pagination-nav"],
    ["docusaurus", "<meta[^>]*generator[^>]*Docusaurus",
     "\\/@docusaurus\\/", "docusaurus\\.config"], 10⟩,
   ⟨"vitepress",
    [".vp-doc", ".VPNav", ".VPSidebar", ".VPContent", ".vp-code",
     "[class*=\"VPHome\"]"],
    ["vitepress", "<meta[^>]*generator[^>]*VitePress", "vitepress\\.css",
     "__VP_"], 10⟩,
   ⟨"starlight",
    [".sl-markdown-content", "[data-starlight]", ".starlight-aside",
     "astro-island"],
    ["starlight", "<meta[^>]*generator[^>]*Astro", "Starlight",
     "@astrojs\\/starlight"], 10⟩,
   ⟨"mkdocs",
    [".md-content", ".md-header", ".md-sidebar", ".md-nav",
     "[data-md-component]"],
    ["mkdocs", "<meta[^>]*generator[^>]*mkdocs", "material-?for-?mkdocs",
     "mkdocs\\.yml"], 10⟩,
   ⟨"sphinx",
    [".sphinxsidebar", ".document", ".bodywrapper", "[class*=\"sphinx\"]",
     ".rst-content", "#furo-main-content", ".furo-main",
     "[href*=\"sphinx-doc.org\"]"],
    ["sphinx", "<meta[^>]*generator[^>]*Sphinx", "sphinx_rtd_theme",
     "_static\\/sphinx", "pradyunsg.*furo", "furo\\.css",
     "Made with.*Sphinx"], 10⟩,
   ⟨"gitbook",
    [".gitbook-root", "[data-gitbook]", ".space-navigation", ".page-inner",
     "[class*=\"page-width-default\"]", "[class*=\"site-width-default\"]",
     "[data-testid=\"table-of-contents\"]",
     "[href*=\"gitbook.com\"][href*=\"utm_source\"]"],
    ["gitbook", "app\\.gitbook\\.com", "gitbook-x-reason",
     "Powered by GitBook", "gitbook\\.io"], 10⟩]

/-- Oracle for the DOM the detector inspects: whether document.querySelector
finds a given selector (false also standing for the caught invalid-selector
case) and whether the regex compiled from a given source string matches the
document's outerHTML. -/
structure PageEnv where
  selectorPresent : String → Bool
  patternMatches : String → Bool

/-- Score of one frameworkPatterns entry against the page: the selector loop
adds pattern.weight per present selector, then the HTML-pattern loop adds
pattern.weight / 2 per matching regex source. -/
def pageScore (env : PageEnv) (p : FrameworkPattern) : Nat :=
  p.htmlPatterns.foldl
    (fun sc src => if env.patternMatches src then sc + p.weight / 2 else sc)
    (p.selectors.foldl
      (fun sc sel => if env.selectorPresent sel then sc + p.weight else sc) 0)

/-- Accumulation of the scores record over the pattern table: an entry
(framework, score) is appended exactly when the score is positive, so the
record keeps table order (Object.entries preserves string-key insertion
order). -/
def scoresAux (env : PageEnv) :
    List FrameworkPattern → List (String × Nat) → List (String × Nat)
  | [], acc => acc
  | p :: ps, acc =>
      scoresAux env ps
        (if pageScore env p > 0
         then acc ++ [(p.framework, pageScore env p)] else acc)

/-- The scores record of detectFrameworkFromPage. -/
def pageScores (env : PageEnv) : List (String × Nat) :=
  scoresAux env frameworkPatterns []

/-- The maximum-selection loop: strict comparison keeps the earliest maximal
entry. -/
def maxFold : List (String × Nat) → String × Nat → String × Nat
  | [], m => m
  | e :: l, m => maxFold l (if e.2 > m.2 then e else m)

/-- Winner of the scores record, starting from ('custom', 0). -/
def maxEntry (l : List (String × Nat)) : String × Nat :=
  maxFold l ("custom", 0)

/-- detectFrameworkFromPage: detected framework and its confidence
min(maxScore / 30, 1), or 0 when no pattern scored. -/
def detectFrameworkFromPage (env : PageEnv) : String × ℚ :=
  ((maxEntry (pageScores env)).1,
   if (maxEntry (pageScores env)).2 > 0
   then min (((maxEntry (pageScores env)).2 : ℚ) / 30) 1 else 0)

/-- Scoring rule as the specification words it: full weight per present
selector, half weight per matching markup pattern. -/
def claimScore (env : PageEnv) (p : FrameworkPattern) : Nat :=
  p.weight * p.selectors.countP env.selectorPresent
    + p.weight / 2 * p.htmlPatterns.countP env.patternMatches

/-- Highest claimScore over the whole pattern table. -/
def specMaxScore (env : PageEnv) : Nat :=
  (frameworkPatterns.map (claimScore env)).foldl max 0

/-- Keys of the siteConfigs table of config/sites.ts: the four per-hostname
entries and one synthetic __framework__ entry per detectable framework. -/
def siteConfigKeys : List String :=
  ["developers.cloudflare.com", "platform.openai.com", "docs.x.ai",
   "ai.google.dev", "__docusaurus__", "__vitepress__", "__starlight__",
   "__mkdocs__", "__sphinx__", "__gitbook__"]

/-- getFrameworkConfig up to the config payload: siteConfigs is consulted at
the key __framework__, and null is returned when no entry exists. -/
def getFrameworkConfigKey (fw : String) : Option String :=
  if siteConfigKeys.contains ("__" ++ fw ++ "__")
  then some ("__" ++ fw ++ "__") else none

/-- Auto-detection branch of playwrightAdapter.fetchMarkdown, entered when
the site has no hostname-specific config: the detected framework's
configuration replaces the default exactly when the framework is not
'custom', the confidence is at least 0.3, and getFrameworkConfig returns a
config. -/
def substitutesFrameworkConfig (env : PageEnv) : Bool :=
  ((detectFrameworkFromPage env).1 != "custom")
    && decide ((3 : ℚ) / 10 ≤ (detectFrameworkFromPage env).2)
    && (getFrameworkConfigKey (detectFrameworkFromPage env).1).isSome

/-! ## Theorems -/

theorem chunkArray_nil {α : Type} (n : Nat) : chunkArray ([] : List α) n = [] := by
  cases n <;> simp [chunkArray]

theorem chunkArray_cons {α : Type} (a : α) (l : List α) (n : Nat) :
    chunkArray (a :: l) (n+1) =
      (a :: l).take (n+1) :: chunkArray ((a :: l).drop (n+1)) (n+1) := by
  simp [chunkArray]

/-- Bounded-length induction workhorse: all three chunk properties at once. -/
theorem chunkArray_props_aux {α : Type} (n : Nat) :
    ∀ (k : Nat) (xs : List α), xs.length ≤ k →
      (chunkArray xs (n+1)).flatten = xs ∧
      (∀ c ∈ chunkArray xs (n+1), 1 ≤ c.length ∧ c.length ≤ n+1) ∧
      (∀ c ∈ (chunkArray xs (n+1)).dropLast, c.length = n+1) := by
  intro k
  induction k with
  | zero =>
    intro xs hxs
    have : xs = [] := List.eq_nil_of_length_eq_zero (Nat.le_zero.mp hxs)
    subst this
    refine ⟨by rw [chunkArray_nil]; rfl, ?_, ?_⟩
    · intro c hc; rw [chunkArray_nil] at hc; cases hc
    · intro c hc; rw [chunkArray_nil] at hc; cases hc
  | succ k ih =>
    intro xs hxs
    match xs with
    | [] =>
      refine ⟨by rw [chunkArray_nil]; rfl, ?_, ?_⟩
      · intro c hc; rw [chunkArray_nil] at hc; cases hc
      · intro c hc; rw [chunkArray_nil] at hc; cases hc
    | a :: l =>
      have hdrop : ((a :: l).drop (n+1)).length ≤ k := by
        simp only [List.length_drop, List.length_cons]
        simp only [List.length_cons] at hxs
        omega
      obtain ⟨ihj, ihm, ihd⟩ := ih ((a :: l).drop (n+1)) hdrop
      refine ⟨?_, ?_, ?_⟩
      · rw [chunkArray_cons, List.flatten_cons, ihj]
        exact List.take_append_drop _ _
      · intro c hc
        rw [chunkArray_cons] at hc
        rcases List.mem_cons.mp hc with h | h
        · subst h
          refine ⟨by simp, by simp⟩
        · exact ihm c h
      · intro c hc
        rw [chunkArray_cons] at hc
        by_cases hnil : chunkArray ((a :: l).drop (n+1)) (n+1) = []
        · rw [hnil] at hc; cases hc
        · rw [List.dropLast_cons_of_ne_nil hnil] at hc
          rcases List.mem_cons.mp hc with h | h
          · subst h
            have hlen : n + 1 < (a :: l).length := by
              by_contra hle
              push_neg at hle
              rw [List.drop_eq_nil_of_le hle, chunkArray_nil] at hnil
              exact hnil rfl
            simp only [List.length_take]
            omega
          · exact ihd c h

/-- C10: `chunkArray` partitions its input: for every array `xs` and chunk size
`s ≥ 1`, concatenating the chunks in order yields exactly `xs`, every chunk
except possibly the last has length exactly `s`, and every chunk (hence the
last) has length between 1 and `s`. -/
theorem c10_chunkArray_partitions {α : Type} (xs : List α) (s : Nat) (hs : 1 ≤ s) :
    (chunkArray xs s).flatten = xs ∧
    (∀ c ∈ (chunkArray xs s).dropLast, c.length = s) ∧
    (∀ c ∈ chunkArray xs s, 1 ≤ c.length ∧ c.length ≤ s) := by
  obtain ⟨n, rfl⟩ : ∃ n, s = n + 1 := ⟨s - 1, by omega⟩
  obtain ⟨h1, h2, h3⟩ := chunkArray_props_aux n xs.length xs (le_refl _)
  exact ⟨h1, h3, h2⟩

/-- Witness for C10 at a concrete input: `chunkArray [1,2,3,4,5] 2`. -/
theorem c10_chunkArray_partitions_witness :
    1 ≤ 2 ∧
    ((chunkArray [1, 2, 3, 4, 5] 2).flatten = [1, 2, 3, 4, 5] ∧
     (∀ c ∈ (chunkArray [1, 2, 3, 4, 5] 2).dropLast, c.length = 2) ∧
     (∀ c ∈ chunkArray [1, 2, 3, 4, 5] 2, 1 ≤ c.length ∧ c.length ≤ 2)) :=
  ⟨by omega, c10_chunkArray_partitions [1, 2, 3, 4, 5] 2 (by omega)⟩

/-! ### Lemmas on the JS string and path primitives -/

theorem str_data_nil (s : String) : s.data = [] ↔ s = "" := by
  cases s with
  | mk d =>
    constructor
    · intro h
      show String.mk d = ""
      rw [show d = ([] : List Char) from h]
    · intro h
      rw [h]

theorem cons_isPrefixOf (a : Char) (as : List Char) (c : Char) (l : List Char) :
    ((a :: as).isPrefixOf (c :: l)) = ((a == c) && as.isPrefixOf l) := rfl

theorem single_isPrefixOf (a c : Char) (l : List Char) :
    ([a]).isPrefixOf (c :: l) = (a == c) := by
  simp [List.isPrefixOf]

theorem pair_isPrefixOf (a b c1 c2 : Char) (l : List Char) :
    ([a, b]).isPrefixOf (c1 :: c2 :: l) = ((a == c1) && (b == c2)) := by
  simp [List.isPrefixOf]

theorem splitChAux_free (c : Char) (pre : List Char) (hc : c ∉ pre) :
    ∀ (cur rest : List Char),
      splitChAux c cur (pre ++ rest) = splitChAux c (pre.reverse ++ cur) rest := by
  induction pre with
  | nil => intro cur rest; simp
  | cons x xs ih =>
    intro cur rest
    have hx : x ≠ c := fun h => hc (h ▸ List.mem_cons_self x xs)
    have hxs : c ∉ xs := fun h => hc (List.mem_cons_of_mem x h)
    show splitChAux c cur (x :: (xs ++ rest)) = _
    rw [splitChAux, if_neg hx, ih hxs (x :: cur) rest]
    simp

theorem splitChAux_no_sep (c : Char) :
    ∀ (l cur : List Char), c ∉ l → splitChAux c cur l = [String.mk (cur.reverse ++ l)] := by
  intro l
  induction l with
  | nil => intro cur _; simp [splitChAux]
  | cons x xs ih =>
    intro cur hc
    have hx : x ≠ c := fun h => hc (h ▸ List.mem_cons_self x xs)
    have hxs : c ∉ xs := fun h => hc (List.mem_cons_of_mem x h)
    rw [splitChAux, if_neg hx, ih (x :: cur) hxs]
    simp

theorem jsSplit_no_sep (c : Char) (s : String) (h : c ∉ s.data) : jsSplit c s = [s] := by
  rw [jsSplit, splitChAux_no_sep c s.data [] h]
  cases s
  rfl

theorem splitChAux_mem_free (c : Char) :
    ∀ (l cur : List Char), c ∉ cur → ∀ s ∈ splitChAux c cur l, c ∉ s.data := by
  intro l
  induction l with
  | nil =>
    intro cur hcur s hs
    simp only [splitChAux, List.mem_singleton] at hs
    subst hs
    simpa using fun h => hcur h
  | cons x xs ih =>
    intro cur hcur s hs
    by_cases hx : x = c
    · rw [splitChAux, if_pos hx] at hs
      rcases List.mem_cons.mp hs with h | h
      · subst h; simpa using fun h => hcur h
      · exact ih [] (by simp) s h
    · rw [splitChAux, if_neg hx] at hs
      refine ih (x :: cur) ?_ s hs
      intro hmem
      rcases List.mem_cons.mp hmem with h | h
      · exact hx h.symm
      · exact hcur h

theorem jsSplit_mem_free (c : Char) (str : String) (s : String) (h : s ∈ jsSplit c str) :
    c ∉ s.data :=
  splitChAux_mem_free c str.data [] (by simp) s h

/-- Round trip: joining clean segments with `/` and splitting again is the
identity. -/
theorem jsSplit_joinSegs (ts : List String) (hne : ts ≠ [])
    (hfree : ∀ s ∈ ts, '/' ∉ s.data) : jsSplit '/' (joinSegs ts) = ts := by
  induction ts with
  | nil => exact absurd rfl hne
  | cons a rest ih =>
    match rest with
    | [] =>
      exact jsSplit_no_sep '/' a (hfree a (List.mem_singleton.mpr rfl))
    | b :: rest' =>
      have ha : '/' ∉ a.data := hfree a (List.mem_cons_self _ _)
      have hdata : (a ++ "/" ++ joinSegs (b :: rest')).data
          = a.data ++ ('/' :: (joinSegs (b :: rest')).data) := by
        rw [String.data_append, String.data_append]
        simp
      show jsSplit '/' (a ++ "/" ++ joinSegs (b :: rest')) = a :: b :: rest'
      rw [jsSplit, hdata, splitChAux_free '/' a.data ha [] ('/' :: (joinSegs (b :: rest')).data),
        splitChAux, if_pos rfl]
      have htail : splitChAux '/' [] (joinSegs (b :: rest')).data = b :: rest' :=
        ih (by simp) (fun s hs => hfree s (List.mem_cons_of_mem a hs))
      rw [htail]
      have hhead : String.mk (a.data.reverse ++ []).reverse = a := by
        cases a; simp
      rw [hhead]

theorem normSegs_nil (acc : List String) : normSegs acc [] = acc.reverse := rfl

theorem normSegs_skip (acc : List String) (s : String) (rest : List String)
    (h : s = "" ∨ s = ".") : normSegs acc (s :: rest) = normSegs acc rest := by
  rw [normSegs, if_pos h]

theorem normSegs_dotdot (acc : List String) (rest : List String) :
    normSegs acc (".." :: rest) = normSegs acc.tail rest := by
  rw [normSegs, if_neg (by decide), if_pos rfl]

theorem normSegs_push (acc : List String) (s : String) (rest : List String)
    (h0 : s ≠ "") (h1 : s ≠ ".") (h2 : s ≠ "..") :
    normSegs acc (s :: rest) = normSegs (s :: acc) rest := by
  rw [normSegs, if_neg (by push_neg; exact ⟨h0, h1⟩), if_neg h2]

theorem normSegs_clean (acc : List String) (ts : List String)
    (h : ∀ s ∈ ts, s ≠ "" ∧ s ≠ "." ∧ s ≠ "..") :
    normSegs acc ts = acc.reverse ++ ts := by
  induction ts generalizing acc with
  | nil => simp [normSegs_nil]
  | cons s rest ih =>
    obtain ⟨h0, h1, h2⟩ := h s (List.mem_cons_self _ _)
    rw [normSegs_push acc s rest h0 h1 h2,
      ih (s :: acc) (fun t ht => h t (List.mem_cons_of_mem s ht))]
    simp

theorem normSegs_mem (ts : List String) :
    ∀ (acc : List String) (s : String), s ∈ normSegs acc ts → s ∈ acc ∨ s ∈ ts := by
  induction ts with
  | nil =>
    intro acc s hs
    rw [normSegs_nil] at hs
    exact Or.inl (List.mem_reverse.mp hs)
  | cons x rest ih =>
    intro acc s hs
    by_cases hx0 : x = "" ∨ x = "."
    · rw [normSegs_skip acc x rest hx0] at hs
      rcases ih acc s hs with h | h
      · exact Or.inl h
      · exact Or.inr (List.mem_cons_of_mem x h)
    · by_cases hx2 : x = ".."
      · subst hx2
        rw [normSegs_dotdot] at hs
        rcases ih acc.tail s hs with h | h
        · exact Or.inl (List.tail_subset acc h)
        · exact Or.inr (List.mem_cons_of_mem _ h)
      · push_neg at hx0
        rw [normSegs_push acc x rest hx0.1 hx0.2 hx2] at hs
        rcases ih (x :: acc) s hs with h | h
        · rcases List.mem_cons.mp h with h' | h'
          · exact Or.inr (h' ▸ List.mem_cons_self x rest)
          · exact Or.inl h'
        · exact Or.inr (List.mem_cons_of_mem x h)

theorem normSegs_not_special (ts : List String) :
    ∀ (acc : List String), (∀ a ∈ acc, a ≠ "" ∧ a ≠ "." ∧ a ≠ "..") →
      ∀ s ∈ normSegs acc ts, s ≠ "" ∧ s ≠ "." ∧ s ≠ ".." := by
  induction ts with
  | nil =>
    intro acc hacc s hs
    rw [normSegs_nil] at hs
    exact hacc s (List.mem_reverse.mp hs)
  | cons x rest ih =>
    intro acc hacc s hs
    by_cases hx0 : x = "" ∨ x = "."
    · rw [normSegs_skip acc x rest hx0] at hs
      exact ih acc hacc s hs
    · by_cases hx2 : x = ".."
      · subst hx2
        rw [normSegs_dotdot] at hs
        exact ih acc.tail (fun a ha => hacc a (List.tail_subset acc ha)) s hs
      · push_neg at hx0
        rw [normSegs_push acc x rest hx0.1 hx0.2 hx2] at hs
        refine ih (x :: acc) ?_ s hs
        intro a ha
        rcases List.mem_cons.mp ha with h | h
        · subst h; exact ⟨hx0.1, hx0.2, hx2⟩
        · exact hacc a h

theorem stripCommon_of_prefix (a : List String) :
    ∀ (t : List String), stripCommon a (a ++ t) = ([], t) := by
  induction a with
  | nil =>
    intro t
    cases t <;> simp [stripCommon]
  | cons x xs ih =>
    intro t
    show stripCommon (x :: xs) (x :: (xs ++ t)) = ([], t)
    rw [stripCommon, if_pos rfl]
    exact ih t

theorem stripCommon_of_not_prefix :
    ∀ (a b : List String), ¬ a <+: b → (stripCommon a b).1 ≠ [] := by
  intro a
  induction a with
  | nil => intro b hb; exact absurd (List.nil_prefix) hb
  | cons x xs ih =>
    intro b hb
    match b with
    | [] => simp [stripCommon]
    | y :: ys =>
      by_cases hxy : x = y
      · subst hxy
        rw [stripCommon, if_pos rfl]
        refine ih ys (fun hpre => hb ?_)
        exact (List.cons_prefix_cons).mpr ⟨rfl, hpre⟩
      · rw [stripCommon, if_neg hxy]
        simp

/-- Prepending `segment ++ "/"` does not change whether a string starts
with `..`. -/
theorem jsStartsWith_dotdot_append (a x : String) :
    jsStartsWith (a ++ "/" ++ x) ".." = jsStartsWith a ".." := by
  rw [jsStartsWith, jsStartsWith]
  rw [String.data_append, String.data_append]
  have hdd : (".." : String).data = ['.', '.'] := rfl
  have hsl : ("/" : String).data = ['/'] := rfl
  rw [hdd, hsl]
  have hds : ('.' == '/') = false := by decide
  match a.data with
  | [] =>
    rw [List.nil_append]
    show (['.', '.']).isPrefixOf ('/' :: x.data) = (['.', '.']).isPrefixOf []
    rw [cons_isPrefixOf, hds]
    simp [List.isPrefixOf]
  | [c] =>
    show (['.', '.']).isPrefixOf (c :: '/' :: x.data) = (['.', '.']).isPrefixOf [c]
    rw [pair_isPrefixOf, hds]
    simp [List.isPrefixOf]
  | c1 :: c2 :: cs =>
    simp only [List.cons_append, List.append_assoc]
    rw [pair_isPrefixOf, pair_isPrefixOf]

/-- The string `..` and any `../…` start with `..`. -/
theorem jsStartsWith_join_dotdot (xs : List String) :
    jsStartsWith (joinSegs (".." :: xs)) ".." = true := by
  match xs with
  | [] => decide
  | y :: ys =>
    show jsStartsWith (".." ++ "/" ++ joinSegs (y :: ys)) ".." = true
    rw [jsStartsWith_dotdot_append]
    decide

theorem jsStartsWith_join_not_dotdot (a : String) (xs : List String)
    (ha : jsStartsWith a ".." = false) :
    jsStartsWith (joinSegs (a :: xs)) ".." = false := by
  match xs with
  | [] => exact ha
  | y :: ys =>
    show jsStartsWith (a ++ "/" ++ joinSegs (y :: ys)) ".." = false
    rw [jsStartsWith_dotdot_append]
    exact ha

theorem jsStartsWith_slash_of_free (s : String) (h : '/' ∉ s.data) :
    jsStartsWith s "/" = false := by
  rw [jsStartsWith]
  have hsl : ("/" : String).data = ['/'] := rfl
  rw [hsl]
  match hd : s.data with
  | [] => rfl
  | c :: cs =>
    have hc : ('/' == c) = false := by
      simp only [beq_eq_false_iff_ne, ne_eq]
      intro hch
      rw [hd] at h
      exact h (hch ▸ List.mem_cons_self _ _)
    rw [single_isPrefixOf, hc]

theorem jsStartsWith_join_slash (a : String) (xs : List String)
    (ha0 : a ≠ "") (ha : '/' ∉ a.data) :
    jsStartsWith (joinSegs (a :: xs)) "/" = false := by
  match xs with
  | [] => exact jsStartsWith_slash_of_free a ha
  | y :: ys =>
    show jsStartsWith (a ++ "/" ++ joinSegs (y :: ys)) "/" = false
    rw [jsStartsWith, String.data_append, String.data_append]
    have hsl : ("/" : String).data = ['/'] := rfl
    rw [hsl]
    match hd : a.data with
    | [] => exact absurd ((str_data_nil a).mp hd) ha0
    | c :: cs =>
      have hc : ('/' == c) = false := by
        simp only [beq_eq_false_iff_ne, ne_eq]
        intro hch
        rw [hd] at ha
        exact ha (hch ▸ List.mem_cons_self _ _)
      simp only [List.cons_append, List.append_assoc]
      rw [single_isPrefixOf, hc]

theorem jsStartsWith_head_of_split (path d : String) (rest : List String)
    (hsplit : jsSplit '/' path = d :: rest) (hd0 : d ≠ "") :
    jsStartsWith path "/" = false := by
  rw [jsStartsWith]
  have hsl : ("/" : String).data = ['/'] := rfl
  rw [hsl]
  match hp : path.data with
  | [] => rfl
  | c :: cs =>
    by_cases hc : c = '/'
    · subst hc
      rw [jsSplit, hp, splitChAux, if_pos rfl] at hsplit
      injection hsplit with h1 h2
      have hdempty : d = "" := by rw [← h1]; rfl
      exact absurd hdempty hd0
    · rw [single_isPrefixOf]
      simp only [beq_eq_false_iff_ne, ne_eq]
      exact fun h => hc h.symm

/-! ### C5: path-traversal protection in saveFile -/

/-- C5 counterexample: with working directory `/home` and configured output
root `a/b`, the call `saveFile "a/b/../c.md"` resolves to `/home/a/c.md`,
which escapes the output root `/home/a/b`, yet `saveFile` accepts and writes
it (the validation base is the first path segment `a`, not the configured
root `a/b`). -/
theorem c5_counterexample :
    saveFile ["home"] "a/b/../c.md" = Except.ok ["home", "a", "c.md"] ∧
    ¬ insideDir (resolveFrom ["home"] "a/b") (resolveFrom ["home"] "a/b/../c.md") := by
  constructor
  · rfl
  · intro h
    have h1 : resolveFrom ["home"] "a/b" = ["home", "a", "b"] := rfl
    have h2 : resolveFrom ["home"] "a/b/../c.md" = ["home", "a", "c.md"] := rfl
    rw [h1, h2] at h
    rcases h with ⟨t, ht⟩
    simp at ht

/-- C5 amended: `saveFile` validates against the first segment of the supplied
path (`path.split('/')[0]`), not the configured output root.  For a path whose
first segment is `d` (with hygienic segment names), `saveFile` rejects exactly
when the resolved path escapes the directory `cwd/d`, and otherwise writes the
resolved path.  When the configured output root is a single relative segment,
`d` is that root and the claim's protection holds; for a multi-segment output
root it does not (see the counterexample). -/
theorem c5_saveFile_first_segment (cwd : List String) (path d : String) (rest : List String)
    (hsplit : jsSplit '/' path = d :: rest)
    (hcwd : ∀ s ∈ cwd, CleanSeg s) (hd : CleanSeg d)
    (hrest : ∀ s ∈ rest, s = "" ∨ s = "." ∨ s = ".." ∨ CleanSeg s) :
    (¬ insideDir (cwd ++ [d]) (resolveFrom cwd path) →
        saveFile cwd path = Except.error ("Path traversal detected: " ++ path)) ∧
    (insideDir (cwd ++ [d]) (resolveFrom cwd path) →
        saveFile cwd path = Except.ok (resolveFrom cwd path)) := by
  obtain ⟨hd0, hd1, hd2, hd3⟩ := hd
  have hddot : d ≠ ".." := by
    intro h
    rw [h] at hd2
    exact absurd hd2 (by decide)
  -- the path is relative, so resolution starts from cwd
  have hpathrel : jsStartsWith path "/" = false := jsStartsWith_head_of_split path d rest hsplit hd0
  have hR : resolveFrom cwd path = normSegs (d :: cwd.reverse) rest := by
    rw [resolveFrom, hpathrel]
    simp only [Bool.false_eq_true, if_false]
    rw [hsplit, normSegs_push cwd.reverse d rest hd0 hd1 hddot]
  -- the validation base is cwd/d
  have hbaseDir : baseDirOf path = d := by
    rw [baseDirOf, hsplit]
    simp [hd0]
  have hbase : resolveFrom cwd d = cwd ++ [d] := by
    rw [resolveFrom, jsStartsWith_slash_of_free d hd3, jsSplit_no_sep '/' d hd3]
    simp only [Bool.false_eq_true, if_false]
    rw [normSegs_clean cwd.reverse [d] (by simp [hd0, hd1, hddot])]
    simp
  -- all surviving segments of the resolved path are clean
  have haccClean : ∀ a ∈ (d :: cwd.reverse), a ≠ "" ∧ a ≠ "." ∧ a ≠ ".." := by
    intro a ha
    rcases List.mem_cons.mp ha with h | h
    · exact h ▸ ⟨hd0, hd1, hddot⟩
    · obtain ⟨c0, c1, c2, _⟩ := hcwd a (List.mem_reverse.mp h)
      refine ⟨c0, c1, ?_⟩
      intro hdd
      rw [hdd] at c2
      exact absurd c2 (by decide)
  have hRClean : ∀ s ∈ resolveFrom cwd path, CleanSeg s := by
    intro s hs
    rw [hR] at hs
    obtain ⟨n0, n1, n2⟩ := normSegs_not_special rest (d :: cwd.reverse) haccClean s hs
    rcases normSegs_mem rest (d :: cwd.reverse) s hs with h | h
    · rcases List.mem_cons.mp h with h' | h'
      · exact h' ▸ ⟨hd0, hd1, hd2, hd3⟩
      · exact hcwd s (List.mem_reverse.mp h')
    · rcases hrest s h with h' | h' | h' | h'
      · exact absurd h' n0
      · exact absurd h' n1
      · exact absurd h' n2
      · exact h'
  constructor
  · -- escaping: the relative path starts with ".." and validation rejects
    intro hesc
    have hval : validatePath cwd path (baseDirOf path) = false := by
      rw [validatePath, hbaseDir, hbase]
      have hne := stripCommon_of_not_prefix (cwd ++ [d]) (resolveFrom cwd path) hesc
      match hsc : (stripCommon (cwd ++ [d]) (resolveFrom cwd path)).1 with
      | [] => exact absurd hsc hne
      | x :: xs =>
        rw [nodeRelative, hsc]
        have hrep : List.replicate (x :: xs).length ".." ++ (stripCommon (cwd ++ [d]) (resolveFrom cwd path)).2
            = ".." :: (List.replicate xs.length ".." ++ (stripCommon (cwd ++ [d]) (resolveFrom cwd path)).2) := by
          simp [List.replicate]
        rw [hrep, jsStartsWith_join_dotdot]
        simp
    rw [saveFile, hval]
    simp
  · -- inside: validation passes and the file is written
    intro hin
    obtain ⟨t, ht⟩ := hin
    have htClean : ∀ s ∈ t, CleanSeg s := by
      intro s hs
      exact hRClean s (by rw [← ht]; exact List.mem_append_right _ hs)
    have hrel : nodeRelative (cwd ++ [d]) (resolveFrom cwd path) = joinSegs t := by
      rw [nodeRelative, ← ht, stripCommon_of_prefix]
      simp
    have hval : validatePath cwd path (baseDirOf path) = true := by
      rw [validatePath, hbaseDir, hbase, hrel]
      match t, htClean, ht with
      | [], _, ht =>
        have h2 : resolveFrom (cwd ++ [d]) (joinSegs []) = resolveFrom cwd path := by
          show resolveFrom (cwd ++ [d]) "" = resolveFrom cwd path
          rw [resolveFrom]
          have hsp : jsSplit '/' "" = [""] := rfl
          have hns : jsStartsWith "" "/" = false := rfl
          rw [hns]
          simp only [Bool.false_eq_true, if_false]
          rw [hsp, normSegs_skip _ "" [] (Or.inl rfl), normSegs_nil]
          rw [← ht]
          simp
        have h3 : jsStartsWith (joinSegs []) ".." = false := by decide
        rw [h2, h3]
        simp
      | a :: ts, htClean, ht =>
        obtain ⟨a0, _, a2, a3⟩ := htClean a (List.mem_cons_self _ _)
        have hfree : ∀ s ∈ a :: ts, '/' ∉ s.data := fun s hs => (htClean s hs).2.2.2
        have hnospecial : ∀ s ∈ a :: ts, s ≠ "" ∧ s ≠ "." ∧ s ≠ ".." := by
          intro s hs
          obtain ⟨s0, s1, s2, _⟩ := htClean s hs
          refine ⟨s0, s1, ?_⟩
          intro hdd
          rw [hdd] at s2
          exact absurd s2 (by decide)
        have h1 : jsStartsWith (joinSegs (a :: ts)) ".." = false :=
          jsStartsWith_join_not_dotdot a ts a2
        have h2 : resolveFrom (cwd ++ [d]) (joinSegs (a :: ts)) = resolveFrom cwd path := by
          rw [resolveFrom, jsStartsWith_join_slash a ts a0 a3,
            jsSplit_joinSegs (a :: ts) (by simp) hfree]
          simp only [Bool.false_eq_true, if_false]
          rw [normSegs_clean (cwd ++ [d]).reverse (a :: ts) hnospecial]
          rw [← ht]
          simp
        rw [h1, h2]
        simp
    rw [saveFile, hval]
    simp

/-- Witness for the C5 amended theorem at `cwd = /home`, `path = out/docs/a.md`. -/
theorem c5_saveFile_first_segment_witness :
    (jsSplit '/' "out/docs/a.md" = "out" :: ["docs", "a.md"] ∧
      insideDir (["home"] ++ ["out"]) (resolveFrom ["home"] "out/docs/a.md")) ∧
    saveFile ["home"] "out/docs/a.md" = Except.ok (resolveFrom ["home"] "out/docs/a.md") := by
  refine ⟨⟨by rfl, ⟨["docs", "a.md"], by rfl⟩⟩, ?_⟩
  exact (c5_saveFile_first_segment ["home"] "out/docs/a.md" "out" ["docs", "a.md"]
    (by rfl)
    (by
      intro s hs
      simp only [List.mem_singleton] at hs
      subst hs
      exact ⟨by decide, by decide, by rfl, by decide⟩)
    ⟨by decide, by decide, by rfl, by decide⟩
    (by
      intro s hs
      right; right; right
      rcases List.mem_cons.mp hs with h | h
      · subst h; exact ⟨by decide, by decide, by rfl, by decide⟩
      · simp only [List.mem_singleton] at h
        subst h; exact ⟨by decide, by decide, by rfl, by decide⟩)).2
    ⟨["docs", "a.md"], by rfl⟩

/-! ### Crawl machine invariants: fetch-at-most-once (C2) -/

theorem invFetch_taskStart (env : CrawlEnv) (s : MSt) (i : Nat) (it : Item)
    (h : InvFetch s) : InvFetch (taskStart env s i it) := by
  by_cases hv : it.url ∈ s.visited
  · rw [taskStart, if_pos hv]
    exact h
  · rw [taskStart, if_neg hv]
    obtain ⟨hnd, hsub⟩ := h
    constructor
    · show (s.fetchLog ++ [it.url]).Nodup
      rw [List.nodup_append]
      refine ⟨hnd, List.nodup_singleton _, ?_⟩
      intro v hvf hvs
      rw [List.mem_singleton] at hvs
      subst hvs
      exact hv (hsub _ hvf)
    · intro u hu
      rcases List.mem_append.mp hu with h1 | h1
      · exact List.mem_cons_of_mem _ (hsub u h1)
      · rw [List.mem_singleton] at h1
        subst h1
        exact List.mem_cons_self _ _

theorem invFetch_mstep (cfg : CrawlCfg) (env : CrawlEnv) (s : MSt) (c : Nat)
    (h : InvFetch s) : InvFetch (mstep cfg env s c) := by
  rw [mstep]
  split
  · rw [stepTask]
    split
    · exact h
    · exact h
    · exact invFetch_taskStart env s c _ h
    · next it r heq =>
      match r with
      | FetchRes.ok c' =>
        rw [taskFetched]
        split
        · exact h
        · exact h
      | FetchRes.blocked reason => exact h
      | FetchRes.err m => exact h
    · next it path asg heq =>
      rw [taskSaving]
      split
      · split
        · exact h
        · exact h
      · exact h
  · rw [loadBatch]
    split
    · exact h
    · exact h

theorem invFetch_mrun (cfg : CrawlCfg) (env : CrawlEnv) (s0 : MSt) (sched : List Nat)
    (h : InvFetch s0) : InvFetch (mrun cfg env s0 sched) := by
  induction sched generalizing s0 with
  | nil => exact h
  | cons c rest ih =>
    exact ih (mstep cfg env s0 c) (invFetch_mstep cfg env s0 c h)

/-- C2: within one crawl invocation — link-follow or sitemap mode, any
concurrency value, any interleaving — `fetchWithFallback` is invoked at most
once per URL string: the fetch log of every run has no duplicates. -/
theorem c2_fetch_at_most_once (cfg : CrawlCfg) (env : CrawlEnv) (entry : String)
    (findRes : Option String) (parse : String → Except String (List String))
    (sched : List Nat) (s : MSt)
    (h : crawl cfg env entry findRes parse sched = Except.ok s) :
    s.fetchLog.Nodup := by
  rw [crawl] at h
  split at h
  · rw [crawlLinks] at h
    match hinit : initLink cfg env entry with
    | Except.error e => rw [hinit] at h; cases h
    | Except.ok s0 =>
      rw [hinit] at h
      simp only [Except.map] at h
      cases h
      refine (invFetch_mrun cfg env s0 sched ?_).1
      match henv : env.fetch entry with
      | FetchRes.blocked reason => simp only [initLink, henv] at hinit; cases hinit
      | FetchRes.err m => simp only [initLink, henv] at hinit; cases hinit
      | FetchRes.ok c =>
        simp only [initLink, henv] at hinit
        split at hinit
        · cases hinit
          constructor
          · exact List.nodup_singleton _
          · intro u hu
            rw [List.mem_singleton] at hu
            subst hu
            exact List.mem_singleton.mpr rfl
        · cases hinit
  · match findRes with
    | none => simp only [crawlSitemap] at h; cases h
    | some su =>
      match hp : parse su with
      | Except.error e => simp only [crawlSitemap, hp] at h; cases h
      | Except.ok urls =>
        simp only [crawlSitemap, hp] at h
        cases h
        refine (invFetch_mrun cfg env (initSitemap urls) sched ?_).1
        exact ⟨List.nodup_nil, by intro u hu; cases hu⟩

/-- Witness for C2 on a concrete sitemap run with a duplicated sitemap URL. -/
theorem c2_fetch_at_most_once_witness :
    crawl ⟨"docs", 2, 1, false, false⟩
        ⟨fun _ => FetchRes.ok "c", fun _ => true, fun _ => [], fun u => u ++ ".md"⟩
        "E" (some "sm") (fun _ => Except.ok ["U", "U", "V"])
        [3, 0, 1, 0, 1, 0, 1, 3, 0, 0, 0] =
      Except.ok (mrun ⟨"docs", 2, 1, false, false⟩
        ⟨fun _ => FetchRes.ok "c", fun _ => true, fun _ => [], fun u => u ++ ".md"⟩
        (initSitemap ["U", "U", "V"]) [3, 0, 1, 0, 1, 0, 1, 3, 0, 0, 0]) ∧
    (mrun ⟨"docs", 2, 1, false, false⟩
        ⟨fun _ => FetchRes.ok "c", fun _ => true, fun _ => [], fun u => u ++ ".md"⟩
        (initSitemap ["U", "U", "V"]) [3, 0, 1, 0, 1, 0, 1, 3, 0, 0, 0]).fetchLog.Nodup :=
  ⟨rfl, c2_fetch_at_most_once ⟨"docs", 2, 1, false, false⟩
    ⟨fun _ => FetchRes.ok "c", fun _ => true, fun _ => [], fun u => u ++ ".md"⟩
    "E" (some "sm") (fun _ => Except.ok ["U", "U", "V"])
    [3, 0, 1, 0, 1, 0, 1, 3, 0, 0, 0]
    (mrun ⟨"docs", 2, 1, false, false⟩
      ⟨fun _ => FetchRes.ok "c", fun _ => true, fun _ => [], fun u => u ++ ".md"⟩
      (initSitemap ["U", "U", "V"]) [3, 0, 1, 0, 1, 0, 1, 3, 0, 0, 0])
    rfl⟩

/-! ### Crawl machine invariants: depth bound (C3) -/

theorem enqueueLinks_mem (ls : List String) (d : Nat) (visited : List String) :
    ∀ (p : List Item × List String) (it : Item),
      it ∈ (enqueueLinks ls d visited p).1 →
        it ∈ p.1 ∨ (it.depth = d ∧ it.url ∈ ls) := by
  induction ls with
  | nil => intro p it h; exact Or.inl h
  | cons l rest ih =>
    intro p it h
    have hstep : enqueueLinks (l :: rest) d visited p =
        enqueueLinks rest d visited
          (if l ∈ visited ∨ l ∈ p.2 then p else (p.1 ++ [⟨l, d⟩], l :: p.2)) := rfl
    rw [hstep] at h
    rcases ih _ it h with h1 | h1
    · by_cases hc : l ∈ visited ∨ l ∈ p.2
      · rw [if_pos hc] at h1
        exact Or.inl h1
      · rw [if_neg hc] at h1
        simp only at h1
        rcases List.mem_append.mp h1 with h2 | h2
        · exact Or.inl h2
        · rw [List.mem_singleton] at h2
          subst h2
          exact Or.inr ⟨rfl, List.mem_cons_self _ _⟩
    · exact Or.inr ⟨h1.1, List.mem_cons_of_mem _ h1.2⟩

theorem invDepth_mstep (cfg : CrawlCfg) (env : CrawlEnv) (entry : String)
    (s : MSt) (c : Nat) (h : InvDepth cfg env entry s) :
    InvDepth cfg env entry (mstep cfg env s c) := by
  obtain ⟨hq, ht, hf⟩ := h
  rw [mstep]
  split
  · rw [stepTask]
    split
    · exact ⟨hq, ht, hf⟩
    · exact ⟨hq, ht, hf⟩
    · next it heq =>
      have hok : ItemOk cfg env entry it :=
        ht _ (List.get?_mem heq) it rfl
      rw [taskStart]
      split
      · refine ⟨hq, ?_, hf⟩
        intro t htm it' hit'
        rcases List.mem_or_eq_of_mem_set htm with h1 | h1
        · exact ht t h1 it' hit'
        · subst h1; cases hit'
      · refine ⟨hq, ?_, ?_⟩
        · intro t htm it' hit'
          rcases List.mem_or_eq_of_mem_set htm with h1 | h1
          · exact ht t h1 it' hit'
          · subst h1
            cases hit'
            exact hok
        · intro u hu
          rcases List.mem_append.mp hu with h1 | h1
          · exact hf u h1
          · rw [List.mem_singleton] at h1
            subst h1
            exact ⟨it.depth, hok.2.1, hok.2.2⟩
    · next it r heq =>
      have hok : ItemOk cfg env entry it :=
        ht _ (List.get?_mem heq) it rfl
      match r with
      | FetchRes.ok c' =>
        rw [taskFetched]
        split
        all_goals refine ⟨hq, ?_, hf⟩
        all_goals intro t htm it' hit'
        all_goals rcases List.mem_or_eq_of_mem_set htm with h1 | h1
        · exact ht t h1 it' hit'
        · subst h1; cases hit'; exact hok
        · exact ht t h1 it' hit'
        · subst h1; cases hit'; exact hok
      | FetchRes.blocked reason =>
        refine ⟨hq, ?_, hf⟩
        intro t htm it' hit'
        rcases List.mem_or_eq_of_mem_set htm with h1 | h1
        · exact ht t h1 it' hit'
        · subst h1; cases hit'
      | FetchRes.err m =>
        refine ⟨hq, ?_, hf⟩
        intro t htm it' hit'
        rcases List.mem_or_eq_of_mem_set htm with h1 | h1
        · exact ht t h1 it' hit'
        · subst h1; cases hit'
    · next it path asg heq =>
      have hok : ItemOk cfg env entry it :=
        ht _ (List.get?_mem heq) it rfl
      rw [taskSaving]
      have htasks : ∀ t ∈ s.tasks.set c TaskSt.done, ∀ it', taskItem t = some it' →
          ItemOk cfg env entry it' := by
        intro t htm it' hit'
        rcases List.mem_or_eq_of_mem_set htm with h1 | h1
        · exact ht t h1 it' hit'
        · subst h1; cases hit'
      split
      · split
        · next hcond =>
          refine ⟨?_, htasks, hf⟩
          intro it' hit'
          rcases enqueueLinks_mem (env.links it.url) (it.depth + 1) s.visited
              (s.queue, s.queuedSet) it' hit' with h1 | h1
          · exact hq it' h1
          · refine ⟨by omega, ?_, ?_⟩
            · rw [h1.1]; omega
            · rw [h1.1]
              exact Chain.succ hok.2.2 h1.2
        · exact ⟨hq, htasks, hf⟩
      · exact ⟨hq, htasks, hf⟩
  · rw [loadBatch]
    split
    · refine ⟨?_, ?_, hf⟩
      · intro it hit
        exact hq it (List.drop_subset _ _ hit)
      · intro t htm it hit
        rcases List.mem_map.mp htm with ⟨it', hit', rfl⟩
        cases hit
        exact hq _ (List.take_subset _ _ hit')
    · exact ⟨hq, ht, hf⟩

theorem invDepth_mrun (cfg : CrawlCfg) (env : CrawlEnv) (entry : String)
    (s0 : MSt) (sched : List Nat) (h : InvDepth cfg env entry s0) :
    InvDepth cfg env entry (mrun cfg env s0 sched) := by
  induction sched generalizing s0 with
  | nil => exact h
  | cons c rest ih =>
    exact ih (mstep cfg env s0 c) (invDepth_mstep cfg env entry s0 c h)

/-- A state with an empty frontier and no tasks is a fixed point of the
machine. -/
theorem mrun_fixed (cfg : CrawlCfg) (env : CrawlEnv) (s0 : MSt)
    (h1 : s0.queue = []) (h2 : s0.tasks = []) (sched : List Nat) :
    mrun cfg env s0 sched = s0 := by
  induction sched with
  | nil => rfl
  | cons c rest ih =>
    have hstep : mstep cfg env s0 c = s0 := by
      rw [mstep, if_neg (by rw [h2]; simp), loadBatch, if_neg (by rw [h1]; simp)]
    show mrun cfg env (mstep cfg env s0 c) rest = s0
    rw [hstep, ih]

/-- C3: in every link-follow run, every fetched page has a discovery chain of
length at most `maxDepth` from the entry page (so its shortest
discovery-hop-count is at most `maxDepth`); with `maxDepth = 0` exactly the
entry page is fetched and nothing is ever enqueued. -/
theorem c3_depth_bound (cfg : CrawlCfg) (env : CrawlEnv) (entry : String)
    (sched : List Nat) (s : MSt)
    (h : crawlLinks cfg env entry sched = Except.ok s) :
    (∀ u ∈ s.fetchLog, ∃ n, n ≤ cfg.maxDepth ∧ Chain env entry u n) ∧
    (cfg.maxDepth = 0 → s.fetchLog = [entry] ∧ s.queue = [] ∧ s.tasks = []) := by
  rw [crawlLinks] at h
  match hinit : initLink cfg env entry with
  | Except.error e => rw [hinit] at h; cases h
  | Except.ok s0 =>
    rw [hinit] at h
    simp only [Except.map] at h
    cases h
    match henv : env.fetch entry with
    | FetchRes.blocked reason => simp only [initLink, henv] at hinit; cases hinit
    | FetchRes.err m => simp only [initLink, henv] at hinit; cases hinit
    | FetchRes.ok c =>
      simp only [initLink, henv] at hinit
      split at hinit
      · cases hinit
        constructor
        · refine (invDepth_mrun cfg env entry _ sched ?_).2.2
          refine ⟨?_, ?_, ?_⟩
          · intro it hit
            simp only at hit
            split at hit
            · next hd =>
              rcases List.mem_map.mp hit with ⟨l, hl, rfl⟩
              rw [List.mem_filter] at hl
              exact ⟨le_refl 1, hd, Chain.succ Chain.zero hl.1⟩
            · cases hit
          · intro t htm
            cases htm
          · intro u hu
            simp only [List.mem_singleton] at hu
            subst hu
            exact ⟨0, Nat.zero_le _, Chain.zero⟩
        · intro hd0
          have hq : (if 0 < cfg.maxDepth then
              ((env.links entry).filter (fun l => l ≠ entry)).map
                (fun l => ({ url := l, depth := 1 } : Item))
            else []) = ([] : List Item) := by
            rw [if_neg (by omega)]
          rw [mrun_fixed cfg env _ hq rfl sched]
          exact ⟨rfl, hq, rfl⟩
      · cases hinit

/-- Witness for C3 at a depth-0 run: only the entry page is fetched. -/
theorem c3_depth_bound_witness :
    crawlLinks ⟨"docs", 2, 0, false, true⟩
        ⟨fun _ => FetchRes.ok "c", fun _ => true, fun _ => ["A", "B"], fun u => u ++ ".md"⟩
        "E" [3, 0, 1, 0, 2] =
      Except.ok (mrun ⟨"docs", 2, 0, false, true⟩
        ⟨fun _ => FetchRes.ok "c", fun _ => true, fun _ => ["A", "B"], fun u => u ++ ".md"⟩
        ((initLink ⟨"docs", 2, 0, false, true⟩
          ⟨fun _ => FetchRes.ok "c", fun _ => true, fun _ => ["A", "B"], fun u => u ++ ".md"⟩
          "E").toOption.getD default) [3, 0, 1, 0, 2]) ∧
    (mrun ⟨"docs", 2, 0, false, true⟩
        ⟨fun _ => FetchRes.ok "c", fun _ => true, fun _ => ["A", "B"], fun u => u ++ ".md"⟩
        ((initLink ⟨"docs", 2, 0, false, true⟩
          ⟨fun _ => FetchRes.ok "c", fun _ => true, fun _ => ["A", "B"], fun u => u ++ ".md"⟩
          "E").toOption.getD default) [3, 0, 1, 0, 2]).fetchLog = ["E"] := by
  refine ⟨rfl, ?_⟩
  exact ((c3_depth_bound ⟨"docs", 2, 0, false, true⟩
      ⟨fun _ => FetchRes.ok "c", fun _ => true, fun _ => ["A", "B"], fun u => u ++ ".md"⟩
      "E" [3, 0, 1, 0, 2] _ rfl).2 rfl).1

/-! ### Crawl machine invariants: numbering (C4) -/

theorem lookupD_setD_self (m : List (String × Nat)) (k : String) (v : Nat) :
    lookupD (setD m k v) k = v := by
  induction m with
  | nil => simp [setD, lookupD]
  | cons p rest ih =>
    obtain ⟨k', v'⟩ := p
    by_cases hk : k' = k
    · subst hk
      simp [setD, lookupD]
    · simp [setD, lookupD, hk, ih]

theorem lookupD_setD_ne (m : List (String × Nat)) (k k' : String) (v : Nat)
    (hne : k' ≠ k) : lookupD (setD m k v) k' = lookupD m k' := by
  have hkk : k ≠ k' := fun h => hne h.symm
  induction m with
  | nil => simp [setD, lookupD, hkk]
  | cons p rest ih =>
    obtain ⟨k'', v''⟩ := p
    by_cases hk : k'' = k
    · subst hk
      simp [setD, lookupD, hkk]
    · simp [setD, lookupD, hk, ih]

theorem count_filterMap_set {β : Type} [DecidableEq β] (f : TaskSt → Option β)
    (l : List TaskSt) (i : Nat) (t : TaskSt) (h : l.get? i = some t) (v : TaskSt) (b : β) :
    ((l.set i v).filterMap f).count b + ((f t).toList).count b
      = (l.filterMap f).count b + ((f v).toList).count b := by
  have hlt : i < l.length := by
    by_contra hle
    push_neg at hle
    rw [List.get?_eq_none.mpr hle] at h
    cases h
  have hget : l[i] = t := by
    rw [List.get?_eq_getElem? l i, List.getElem?_eq_getElem hlt] at h
    cases h
    rfl
  have hl : l = l.take i ++ t :: l.drop (i + 1) := by
    conv_lhs => rw [← List.take_append_drop i l]
    congr 1
    rw [List.drop_eq_getElem_cons hlt, hget]
  have hset : l.set i v = l.take i ++ v :: l.drop (i + 1) :=
    List.set_eq_take_cons_drop v hlt
  rw [hset]
  conv_rhs => rw [hl]
  simp only [List.filterMap_append, List.count_append, List.filterMap_cons]
  cases hft : f t <;> cases hfv : f v <;>
    simp [List.count_cons, Option.toList] <;> omega

theorem invNum_mstep (cfg : CrawlCfg) (env : CrawlEnv) (s : MSt) (c : Nat)
    (h : InvNum s) : InvNum (mstep cfg env s c) := by
  obtain ⟨hnum, hpend, hwr⟩ := h
  have hsetTasks : ∀ (v : TaskSt), (∀ a, pendingAssign v = some a → a ∈ s.assigned) →
      ∀ t ∈ s.tasks.set c v, ∀ a, pendingAssign t = some a → a ∈ s.assigned := by
    intro v hv t htm a ha
    rcases List.mem_or_eq_of_mem_set htm with h1 | h1
    · exact hpend t h1 a ha
    · subst h1
      exact hv a ha
  rw [mstep]
  split
  · rw [stepTask]
    split
    · exact ⟨hnum, hpend, hwr⟩
    · exact ⟨hnum, hpend, hwr⟩
    · next it heq =>
      rw [taskStart]
      split
      · exact ⟨hnum, hsetTasks _ (by intro a ha; cases ha), hwr⟩
      · exact ⟨hnum, hsetTasks _ (by intro a ha; cases ha), hwr⟩
    · next it r heq =>
      match r with
      | FetchRes.ok c' =>
        rw [taskFetched]
        split
        · next hn =>
          refine ⟨?_, ?_, ?_⟩
          · intro dir
            by_cases hdir : dir = getDirectoryPath (env.toLocal it.url)
            · subst hdir
              rw [List.filter_append, List.map_append, hnum, lookupD_setD_self]
              have hone : (List.filter (fun a => a.dir = getDirectoryPath (env.toLocal it.url))
                  [(⟨getDirectoryPath (env.toLocal it.url),
                    lookupD s.counters (getDirectoryPath (env.toLocal it.url)) + 1,
                    cfg.outDir ++ "/" ++ addNumberedPrefixed (env.toLocal it.url)
                      (lookupD s.counters (getDirectoryPath (env.toLocal it.url)) + 1),
                    it.url⟩ : Assign)]) =
                  [⟨getDirectoryPath (env.toLocal it.url),
                    lookupD s.counters (getDirectoryPath (env.toLocal it.url)) + 1,
                    cfg.outDir ++ "/" ++ addNumberedPrefixed (env.toLocal it.url)
                      (lookupD s.counters (getDirectoryPath (env.toLocal it.url)) + 1),
                    it.url⟩] := by
                simp
              rw [hone, List.range'_1_concat]
              simp [Nat.add_comm]
            · rw [List.filter_append, List.map_append, hnum,
                lookupD_setD_ne _ _ _ _ hdir]
              have hzero : (List.filter (fun a => a.dir = dir)
                  [(⟨getDirectoryPath (env.toLocal it.url),
                    lookupD s.counters (getDirectoryPath (env.toLocal it.url)) + 1,
                    cfg.outDir ++ "/" ++ addNumberedPrefixed (env.toLocal it.url)
                      (lookupD s.counters (getDirectoryPath (env.toLocal it.url)) + 1),
                    it.url⟩ : Assign)]) = [] := by
                simp
                intro hcontra
                exact absurd hcontra.symm hdir
              rw [hzero]
              simp
          · intro t htm a ha
            rcases List.mem_or_eq_of_mem_set htm with h1 | h1
            · exact List.mem_append_left _ (hpend t h1 a ha)
            · subst h1
              cases ha
              exact List.mem_append_right _ (List.mem_singleton.mpr rfl)
          · intro a ha
            exact List.mem_append_left _ (hwr a ha)
        · exact ⟨hnum, hsetTasks _ (by intro a ha; cases ha), hwr⟩
      | FetchRes.blocked reason =>
        exact ⟨hnum, hsetTasks _ (by intro a ha; cases ha), hwr⟩
      | FetchRes.err m =>
        exact ⟨hnum, hsetTasks _ (by intro a ha; cases ha), hwr⟩
    · next it path asg heq =>
      have hasg : ∀ a, asg = some a → a ∈ s.assigned := by
        intro a ha
        subst ha
        exact hpend _ (List.get?_mem heq) a rfl
      rw [taskSaving]
      have hwr' : ∀ a ∈ s.written ++ asg.toList, a ∈ s.assigned := by
        intro a ha
        rcases List.mem_append.mp ha with h1 | h1
        · exact hwr a h1
        · cases asg with
          | none => cases h1
          | some a2 =>
            simp only [Option.toList, List.mem_singleton] at h1
            subst h1
            exact hasg _ rfl
      split
      · split
        · exact ⟨hnum, hsetTasks _ (by intro a ha; cases ha), hwr'⟩
        · exact ⟨hnum, hsetTasks _ (by intro a ha; cases ha), hwr'⟩
      · exact ⟨hnum, hsetTasks _ (by intro a ha; cases ha), hwr⟩
  · rw [loadBatch]
    split
    · refine ⟨hnum, ?_, hwr⟩
      intro t htm a ha
      rcases List.mem_map.mp htm with ⟨it', _, rfl⟩
      cases ha
    · exact ⟨hnum, hpend, hwr⟩

theorem invNumAcct_mstep (cfg : CrawlCfg) (env : CrawlEnv) (s : MSt) (c : Nat)
    (hsave : ∀ p, env.save p = true)
    (h : InvNumAcct s) : InvNumAcct (mstep cfg env s c) := by
  rw [mstep]
  split
  · rw [stepTask]
    split
    · exact h
    · exact h
    · next it heq =>
      rw [taskStart]
      split
      · intro a
        have hc := count_filterMap_set pendingAssign s.tasks c _ heq TaskSt.done a
        have hh := h a
        simp only [pendingAssign, Option.toList, List.count_nil] at hc
        try dsimp only
        omega
      · intro a
        have hc := count_filterMap_set pendingAssign s.tasks c _ heq
          (TaskSt.fetched it (env.fetch it.url)) a
        have hh := h a
        simp only [pendingAssign, Option.toList, List.count_nil] at hc
        try dsimp only
        omega
    · next it r heq =>
      match r with
      | FetchRes.ok c2 =>
        rw [taskFetched]
        split
        · intro a
          have hc := count_filterMap_set pendingAssign s.tasks c _ heq
            (TaskSt.saving it
              (cfg.outDir ++ "/" ++ addNumberedPrefixed (env.toLocal it.url)
                (lookupD s.counters (getDirectoryPath (env.toLocal it.url)) + 1))
              (some ⟨getDirectoryPath (env.toLocal it.url),
                lookupD s.counters (getDirectoryPath (env.toLocal it.url)) + 1,
                cfg.outDir ++ "/" ++ addNumberedPrefixed (env.toLocal it.url)
                  (lookupD s.counters (getDirectoryPath (env.toLocal it.url)) + 1),
                it.url⟩)) a
          have hh := h a
          simp only [pendingAssign, Option.toList, List.count_nil] at hc
          try dsimp only
          simp only [List.count_append]
          omega
        · intro a
          have hc := count_filterMap_set pendingAssign s.tasks c _ heq
            (TaskSt.saving it (cfg.outDir ++ "/" ++ env.toLocal it.url) none) a
          have hh := h a
          simp only [pendingAssign, Option.toList, List.count_nil] at hc
          try dsimp only
          omega
      | FetchRes.blocked reason =>
        intro a
        have hc := count_filterMap_set pendingAssign s.tasks c _ heq TaskSt.done a
        have hh := h a
        simp only [pendingAssign, Option.toList, List.count_nil] at hc
        simp only [taskFetched]
        try dsimp only
        omega
      | FetchRes.err m =>
        intro a
        have hc := count_filterMap_set pendingAssign s.tasks c _ heq TaskSt.done a
        have hh := h a
        simp only [pendingAssign, Option.toList, List.count_nil] at hc
        simp only [taskFetched]
        try dsimp only
        omega
    · next it path asg heq =>
      rw [taskSaving, if_pos (hsave path)]
      cases asg with
      | none =>
        split
        all_goals intro a
        all_goals have hc := count_filterMap_set pendingAssign s.tasks c _ heq TaskSt.done a
        all_goals have hh := h a
        all_goals simp only [pendingAssign, Option.toList, List.count_nil] at hc
        all_goals try dsimp only
        all_goals simp only [Option.toList, List.append_nil]
        all_goals omega
      | some a2 =>
        split
        all_goals intro a
        all_goals have hc := count_filterMap_set pendingAssign s.tasks c _ heq TaskSt.done a
        all_goals have hh := h a
        all_goals simp only [pendingAssign, Option.toList, List.count_nil] at hc
        all_goals try dsimp only
        all_goals simp only [Option.toList, List.count_append]
        all_goals omega
  · rw [loadBatch]
    split
    · next hcond =>
      intro a
      have hold : s.tasks.filterMap pendingAssign = [] := by
        rw [List.filterMap_eq_nil_iff]
        intro t htm
        rw [hcond.1 t htm]
        rfl
      have hnew : ((s.queue.take (effConc cfg)).map TaskSt.start).filterMap pendingAssign
          = [] := by
        rw [List.filterMap_eq_nil_iff]
        intro t htm
        rcases List.mem_map.mp htm with ⟨it2, _, rfl⟩
        rfl
      have hh := h a
      rw [hold] at hh
      simp only [hnew]
      simpa using hh
    · exact h
theorem invNum_mrun (cfg : CrawlCfg) (env : CrawlEnv) (s0 : MSt) (sched : List Nat)
    (h : InvNum s0) : InvNum (mrun cfg env s0 sched) := by
  induction sched generalizing s0 with
  | nil => exact h
  | cons c rest ih => exact ih (mstep cfg env s0 c) (invNum_mstep cfg env s0 c h)

theorem invNumAcct_mrun (cfg : CrawlCfg) (env : CrawlEnv) (s0 : MSt) (sched : List Nat)
    (hsave : ∀ p, env.save p = true)
    (h : InvNumAcct s0) : InvNumAcct (mrun cfg env s0 sched) := by
  induction sched generalizing s0 with
  | nil => exact h
  | cons c rest ih => exact ih (mstep cfg env s0 c) (invNumAcct_mstep cfg env s0 c hsave h)

theorem initLink_invNum (cfg : CrawlCfg) (env : CrawlEnv) (entry : String) (s0 : MSt)
    (hinit : initLink cfg env entry = Except.ok s0) : InvNum s0 ∧ InvNumAcct s0 := by
  match henv : env.fetch entry with
  | FetchRes.blocked reason => simp only [initLink, henv] at hinit; cases hinit
  | FetchRes.err m => simp only [initLink, henv] at hinit; cases hinit
  | FetchRes.ok c =>
    simp only [initLink, henv] at hinit
    split at hinit
    · cases hinit
      refine ⟨⟨?_, ?_, ?_⟩, ?_⟩
      · intro dir
        by_cases hn : cfg.numbered = true
        · simp only [hn, if_true]
          by_cases hdir : dir = getDirectoryPath (env.toLocal entry)
          · subst hdir
            rw [lookupD_setD_self]
            simp [List.filter, List.range']
          · rw [lookupD_setD_ne _ _ _ _ hdir]
            have h0 : lookupD [] dir = 0 := rfl
            rw [h0]
            have hx : getDirectoryPath (env.toLocal entry) ≠ dir := fun hh => hdir hh.symm
            simp [List.filter, hx, List.range']
        · simp only [Bool.not_eq_true] at hn
          simp [hn, lookupD, List.range']
      · intro t htm
        cases htm
      · intro a ha
        by_cases hn : cfg.numbered = true
        · simp only [hn, if_true] at ha ⊢
          exact ha
        · simp only [Bool.not_eq_true] at hn
          simp only [hn] at ha
          cases ha
      · intro a
        by_cases hn : cfg.numbered = true <;>
          simp [hn, pendingAssign]
    · cases hinit

/-- C4 counterexample: with numbering enabled, two sitemap pages mapping to
the same directory where the first page's save rejects: the surviving file
holds sequence number 2, so the numbers on the files actually written are
`[2]`, not `1..k = [1]`. -/
theorem c4_counterexample :
    ∃ s, crawlSitemap ⟨"docs", 2, 1, true, false⟩
        ⟨fun _ => FetchRes.ok "c", fun p => p != "docs/01-U.md", fun _ => [],
          fun u => u ++ ".md"⟩
        (some "sm") (fun _ => Except.ok ["U", "V"]) [0, 0, 1, 0, 1, 0, 1] =
          Except.ok s ∧
      Terminal s ∧
      (s.written.filter (fun a => a.dir = "")).map (fun a => a.num) = [2] ∧
      List.range' 1 ((s.written.filter (fun a => a.dir = "")).length) = [1] := by
  refine ⟨_, rfl, ?_, ?_, ?_⟩
  · exact ⟨by decide, by decide⟩
  · decide
  · decide

/-- C4 amended: when numbering is enabled, the numbers assigned per directory
are exactly `1..n` in assignment order, where `n` counts the pages of that
directory that reached the write step (fetch succeeded); files actually
written use a subset of these assignments.  When every save succeeds, at the
end of the run the written files' numbers per directory are exactly `1..k`
(as a multiset), `k` the number of files written there.  A save rejection
burns its number, leaving a gap among the written files (see the
counterexample). -/
theorem c4_numbering_amended (cfg : CrawlCfg) (env : CrawlEnv) (entry : String)
    (findRes : Option String) (parse : String → Except String (List String))
    (sched : List Nat) (s : MSt)
    (_hnum : cfg.numbered = true)
    (h : crawl cfg env entry findRes parse sched = Except.ok s) :
    (∀ dir, ((s.assigned.filter (fun a => a.dir = dir)).map (fun a => a.num))
        = List.range' 1 (lookupD s.counters dir)) ∧
    (∀ a ∈ s.written, a ∈ s.assigned) ∧
    ((∀ p, env.save p = true) → (∀ t ∈ s.tasks, t = TaskSt.done) →
      ∀ dir, ((s.written.filter (fun a => a.dir = dir)).map (fun a => a.num)).Perm
        (List.range' 1 ((s.written.filter (fun a => a.dir = dir)).length))) := by
  have hmain : InvNum s ∧ ((∀ p, env.save p = true) → InvNumAcct s) := by
    rw [crawl] at h
    split at h
    · rw [crawlLinks] at h
      match hinit : initLink cfg env entry with
      | Except.error e => rw [hinit] at h; cases h
      | Except.ok s0 =>
        rw [hinit] at h
        simp only [Except.map] at h
        cases h
        obtain ⟨h1, h2⟩ := initLink_invNum cfg env entry s0 hinit
        exact ⟨invNum_mrun cfg env s0 sched h1,
          fun hsave => invNumAcct_mrun cfg env s0 sched hsave h2⟩
    · match findRes with
      | none => simp only [crawlSitemap] at h; cases h
      | some su =>
        match hp : parse su with
        | Except.error e => simp only [crawlSitemap, hp] at h; cases h
        | Except.ok urls =>
          simp only [crawlSitemap, hp] at h
          cases h
          refine ⟨invNum_mrun cfg env (initSitemap urls) sched ⟨?_, ?_, ?_⟩,
            fun hsave => invNumAcct_mrun cfg env (initSitemap urls) sched hsave ?_⟩
          · intro dir
            simp [initSitemap, lookupD, List.range']
          · intro t htm
            cases htm
          · intro a ha
            cases ha
          · intro a
            simp [initSitemap]
  obtain ⟨⟨hnum1, _, hwr⟩, hacct⟩ := hmain
  refine ⟨hnum1, hwr, ?_⟩
  intro hsave hterm dir
  have hpend : s.tasks.filterMap pendingAssign = [] := by
    rw [List.filterMap_eq_nil_iff]
    intro t htm
    rw [hterm t htm]
    rfl
  have hperm : s.assigned.Perm s.written := by
    rw [List.perm_iff_count]
    intro a
    have := hacct hsave a
    rw [hpend] at this
    simpa using this
  have hfperm : ((s.written.filter (fun a => a.dir = dir)).map (fun a => a.num)).Perm
      (List.range' 1 (lookupD s.counters dir)) := by
    rw [← hnum1 dir]
    exact ((hperm.symm.filter _).map _)
  have hlen : (s.written.filter (fun a => a.dir = dir)).length
      = lookupD s.counters dir := by
    have h1 : ((s.written.filter (fun a => a.dir = dir)).map (fun a => a.num)).length
        = (List.range' 1 (lookupD s.counters dir)).length := hfperm.length_eq
    rw [List.length_map, List.length_range'] at h1
    exact h1
  rw [hlen]
  exact hfperm

/-- Witness for the C4 amended theorem on the fixture run. -/
theorem c4_numbering_amended_witness :
    (exCfgNum.numbered = true ∧
      crawl exCfgNum exEnvNum "E" none (fun _ => Except.error "unused") [0, 0, 0, 0]
        = Except.ok exStateNum) ∧
    (∀ dir, ((exStateNum.assigned.filter (fun a => a.dir = dir)).map (fun a => a.num))
        = List.range' 1 (lookupD exStateNum.counters dir)) := by
  refine ⟨⟨rfl, rfl⟩, ?_⟩
  exact (c4_numbering_amended exCfgNum exEnvNum "E" none (fun _ => Except.error "unused")
    [0, 0, 0, 0] exStateNum rfl rfl).1

/-! ### Crawl machine invariants: outcome accounting and throw behavior (C1) -/

theorem invAcct_mstep (cfg : CrawlCfg) (env : CrawlEnv) (s : MSt) (c : Nat)
    (h : InvAcct s) : InvAcct (mstep cfg env s c) := by
  rw [mstep]
  split
  · rw [stepTask]
    split
    · exact h
    · exact h
    · next it heq =>
      rw [taskStart]
      split
      · intro u
        have hc := count_filterMap_set inflightUrl s.tasks c _ heq TaskSt.done u
        have hh := h u
        simp only [inflightUrl, Option.toList, List.count_nil] at hc
        try dsimp only
        omega
      · intro u
        have hc := count_filterMap_set inflightUrl s.tasks c _ heq
          (TaskSt.fetched it (env.fetch it.url)) u
        have hh := h u
        simp only [inflightUrl, Option.toList, List.count_nil] at hc
        try dsimp only
        simp only [List.count_append]
        omega
    · next it r heq =>
      match r with
      | FetchRes.ok c2 =>
        rw [taskFetched]
        split
        · intro u
          have hc := count_filterMap_set inflightUrl s.tasks c _ heq
            (TaskSt.saving it
              (cfg.outDir ++ "/" ++ addNumberedPrefixed (env.toLocal it.url)
                (lookupD s.counters (getDirectoryPath (env.toLocal it.url)) + 1))
              (some ⟨getDirectoryPath (env.toLocal it.url),
                lookupD s.counters (getDirectoryPath (env.toLocal it.url)) + 1,
                cfg.outDir ++ "/" ++ addNumberedPrefixed (env.toLocal it.url)
                  (lookupD s.counters (getDirectoryPath (env.toLocal it.url)) + 1),
                it.url⟩)) u
          have hh := h u
          simp only [inflightUrl, Option.toList] at hc
          try dsimp only
          omega
        · intro u
          have hc := count_filterMap_set inflightUrl s.tasks c _ heq
            (TaskSt.saving it (cfg.outDir ++ "/" ++ env.toLocal it.url) none) u
          have hh := h u
          simp only [inflightUrl, Option.toList] at hc
          try dsimp only
          omega
      | FetchRes.blocked reason =>
        intro u
        have hc := count_filterMap_set inflightUrl s.tasks c _ heq TaskSt.done u
        have hh := h u
        simp only [inflightUrl, Option.toList, List.count_nil] at hc
        simp only [taskFetched]
        try dsimp only
        simp only [List.map_append, List.map_cons, List.map_nil, List.count_append]
        omega
      | FetchRes.err m =>
        intro u
        have hc := count_filterMap_set inflightUrl s.tasks c _ heq TaskSt.done u
        have hh := h u
        simp only [inflightUrl, Option.toList, List.count_nil] at hc
        simp only [taskFetched]
        try dsimp only
        simp only [List.count_append]
        omega
    · next it path asg heq =>
      rw [taskSaving]
      split
      · split
        all_goals intro u
        all_goals have hc := count_filterMap_set inflightUrl s.tasks c _ heq TaskSt.done u
        all_goals have hh := h u
        all_goals simp only [inflightUrl, Option.toList, List.count_nil] at hc
        all_goals try dsimp only
        all_goals simp only [List.count_append]
        all_goals omega
      · intro u
        have hc := count_filterMap_set inflightUrl s.tasks c _ heq TaskSt.done u
        have hh := h u
        simp only [inflightUrl, Option.toList, List.count_nil] at hc
        try dsimp only
        simp only [List.count_append]
        omega
  · rw [loadBatch]
    split
    · next hcond =>
      intro u
      have hold : s.tasks.filterMap inflightUrl = [] := by
        rw [List.filterMap_eq_nil_iff]
        intro t htm
        rw [hcond.1 t htm]
        rfl
      have hnew : ((s.queue.take (effConc cfg)).map TaskSt.start).filterMap inflightUrl
          = [] := by
        rw [List.filterMap_eq_nil_iff]
        intro t htm
        rcases List.mem_map.mp htm with ⟨it2, _, rfl⟩
        rfl
      have hh := h u
      rw [hold] at hh
      simp only [hnew]
      simpa using hh
    · exact h

theorem invAcct_mrun (cfg : CrawlCfg) (env : CrawlEnv) (s0 : MSt) (sched : List Nat)
    (h : InvAcct s0) : InvAcct (mrun cfg env s0 sched) := by
  induction sched generalizing s0 with
  | nil => exact h
  | cons c rest ih => exact ih (mstep cfg env s0 c) (invAcct_mstep cfg env s0 c h)

/-- C1 counterexample: a fetch failure on the entry page in link-follow mode
is a per-page failure, yet `crawl` throws — the entry fetch sits outside the
per-item try/catch. -/
theorem c1_counterexample :
    crawl ⟨"docs", 2, 1, false, true⟩
      ⟨fun _ => FetchRes.err "network down", fun _ => true, fun _ => [], fun u => u ++ ".md"⟩
      "E" none (fun _ => Except.error "unused") [0, 0, 0] =
      Except.error "network down" := rfl

/-- C1 amended: in link-follow mode `crawl` resolves exactly when the entry
page's fetch and save succeed (a `BlockedContentError` or other rejection
there propagates); in sitemap mode it resolves exactly when a sitemap is
found and its parse succeeds.  Every other per-page failure is caught at the
per-item boundary: in any settled run, the fetched URLs are exactly the saved
ones plus the Blocked records plus the Failed records. -/
theorem c1_throw_behavior (cfg : CrawlCfg) (env : CrawlEnv) (entry : String)
    (findRes : Option String) (parse : String → Except String (List String))
    (sched : List Nat) :
    ((∃ s, crawlLinks cfg env entry sched = Except.ok s) ↔
      ((∃ c, env.fetch entry = FetchRes.ok c) ∧
        env.save (entrySavePath cfg env entry) = true)) ∧
    ((∃ s, crawlSitemap cfg env findRes parse sched = Except.ok s) ↔
      (∃ su urls, findRes = some su ∧ parse su = Except.ok urls)) ∧
    (∀ s, crawl cfg env entry findRes parse sched = Except.ok s → Terminal s →
      s.fetchLog.Perm (s.savedUrls ++ s.blockedRec.map Prod.fst ++ s.failedRec)) := by
  refine ⟨?_, ?_, ?_⟩
  · constructor
    · rintro ⟨s, hs⟩
      rw [crawlLinks] at hs
      match henv : env.fetch entry with
      | FetchRes.blocked reason =>
        simp only [initLink, henv, Except.map] at hs
        cases hs
      | FetchRes.err m =>
        simp only [initLink, henv, Except.map] at hs
        cases hs
      | FetchRes.ok c =>
        refine ⟨⟨c, rfl⟩, ?_⟩
        by_cases hsave : env.save (entrySavePath cfg env entry) = true
        · exact hsave
        · simp only [initLink, henv, Except.map] at hs
          rw [if_neg hsave] at hs
          cases hs
    · rintro ⟨⟨c, hc⟩, hsave⟩
      have hinit : ∃ s0, initLink cfg env entry = Except.ok s0 := by
        simp only [initLink, hc, hsave, if_true]
        exact ⟨_, rfl⟩
      obtain ⟨s0, hinit⟩ := hinit
      refine ⟨mrun cfg env s0 sched, ?_⟩
      rw [crawlLinks, hinit]
      rfl
  · constructor
    · rintro ⟨s, hs⟩
      match findRes with
      | none =>
        simp only [crawlSitemap] at hs
        cases hs
      | some su =>
        match hp : parse su with
        | Except.error e =>
          simp only [crawlSitemap, hp] at hs
          cases hs
        | Except.ok urls => exact ⟨su, urls, rfl, hp⟩
    · rintro ⟨su, urls, rfl, hp⟩
      exact ⟨mrun cfg env (initSitemap urls) sched, by simp only [crawlSitemap, hp]⟩
  · intro s hs hterm
    have hacct : InvAcct s := by
      rw [crawl] at hs
      split at hs
      · rw [crawlLinks] at hs
        match hinit : initLink cfg env entry with
        | Except.error e => rw [hinit] at hs; cases hs
        | Except.ok s0 =>
          rw [hinit] at hs
          simp only [Except.map] at hs
          cases hs
          refine invAcct_mrun cfg env s0 sched ?_
          match henv : env.fetch entry with
          | FetchRes.blocked reason => simp only [initLink, henv] at hinit; cases hinit
          | FetchRes.err m => simp only [initLink, henv] at hinit; cases hinit
          | FetchRes.ok c =>
            simp only [initLink, henv] at hinit
            split at hinit
            · cases hinit
              intro u
              simp [inflightUrl]
            · cases hinit
      · match findRes with
        | none => simp only [crawlSitemap] at hs; cases hs
        | some su =>
          match hp : parse su with
          | Except.error e => simp only [crawlSitemap, hp] at hs; cases hs
          | Except.ok urls =>
            simp only [crawlSitemap, hp] at hs
            cases hs
            refine invAcct_mrun cfg env (initSitemap urls) sched ?_
            intro u
            simp [initSitemap]
    have hpend : s.tasks.filterMap inflightUrl = [] := by
      rw [List.filterMap_eq_nil_iff]
      intro t htm
      rw [hterm.1 t htm]
      rfl
    rw [List.perm_iff_count]
    intro u
    have := hacct u
    rw [hpend] at this
    simp only [List.count_append]
    simpa using this

/-- Witness for the C1 amended theorem on the fixture run: the settled run
accounts for every fetched URL. -/
theorem c1_throw_behavior_witness :
    (crawl exCfgNum exEnvNum "E" none (fun _ => Except.error "unused") [0, 0, 0, 0]
        = Except.ok exStateNum ∧ Terminal exStateNum) ∧
    exStateNum.fetchLog.Perm
      (exStateNum.savedUrls ++ exStateNum.blockedRec.map Prod.fst
        ++ exStateNum.failedRec) := by
  refine ⟨⟨rfl, ⟨by decide, by decide⟩⟩, ?_⟩
  exact (c1_throw_behavior exCfgNum exEnvNum "E" none (fun _ => Except.error "unused")
    [0, 0, 0, 0]).2.2 exStateNum rfl ⟨by decide, by decide⟩

/-! ### C8: link filtering on the specified example -/

/-- C8: with base `https://x.com/docs/a` and default options, the four-link
content yields exactly `https://x.com/docs/b`: the cross-origin link, the
`.png` link and the fragment-only link are excluded, and the survivor is
resolved against the base and normalized. -/
theorem c8_link_filtering :
    extractDocLinks
        "[b](/docs/b)\n[ext](https://other.com/y)\n[img](/docs/c.png)\n[anchor](#frag)"
        ⟨"https", "x.com", "/docs/a", "", ""⟩ defaultExtractOptions
      = [⟨"https", "x.com", "/docs/b", "", ""⟩] ∧
    (extractDocLinks
        "[b](/docs/b)\n[ext](https://other.com/y)\n[img](/docs/c.png)\n[anchor](#frag)"
        ⟨"https", "x.com", "/docs/a", "", ""⟩ defaultExtractOptions).map URLm.toStr
      = ["https://x.com/docs/b"] := by
  constructor
  · rfl
  · rfl

/-! ### C7: frontier URL normalization -/

theorem processRaw_normalized (base : URLm) (bp : Option String) (inc : Bool)
    (acc : List URLm) (raw : String)
    (hacc : ∀ u ∈ acc, u.search = "" ∧ u.hash = "") :
    ∀ u ∈ processRaw base bp inc acc raw, u.search = "" ∧ u.hash = "" := by
  intro u hu
  simp only [processRaw] at hu
  split at hu
  · exact hacc u hu
  · split at hu
    · exact hacc u hu
    · split at hu
      · exact hacc u hu
      · split at hu
        · exact hacc u hu
        · split at hu
          · exact hacc u hu
          · split at hu
            · exact hacc u hu
            · split at hu
              · exact hacc u hu
              · split at hu
                · exact hacc u hu
                · rcases List.mem_append.mp hu with h1 | h1
                  · exact hacc u h1
                  · rw [List.mem_singleton] at h1
                    subst h1
                    exact ⟨rfl, rfl⟩

theorem foldl_processRaw_normalized (base : URLm) (bp : Option String) (inc : Bool) :
    ∀ (raws : List String) (acc : List URLm),
      (∀ u ∈ acc, u.search = "" ∧ u.hash = "") →
      ∀ u ∈ raws.foldl (processRaw base bp inc) acc, u.search = "" ∧ u.hash = "" := by
  intro raws
  induction raws with
  | nil => intro acc hacc; exact hacc
  | cons r rest ih =>
    intro acc hacc u hu
    exact ih (processRaw base bp inc acc r)
      (processRaw_normalized base bp inc acc r hacc) u hu

/-- Every URL returned by the link extractor has been normalized. -/
theorem extractDocLinks_normalized (content : String) (base : URLm)
    (opts : ExtractLinksOptions) :
    ∀ u ∈ extractDocLinks content base opts, u.search = "" ∧ u.hash = "" := by
  intro u hu
  simp only [extractDocLinks] at hu
  exact foldl_processRaw_normalized _ _ _ _ [] (by intro v hv; cases hv) u hu

/-- The source of any chained URL: the entry itself or some page's extracted
links. -/
theorem chain_src (env : CrawlEnv) (entry : String) (u : String) (n : Nat)
    (h : Chain env entry u n) : u = entry ∨ ∃ v, u ∈ env.links v := by
  cases h with
  | zero => exact Or.inl rfl
  | succ hc hmem => exact Or.inr ⟨_, hmem⟩

/-- C7 counterexample: a sitemap `<loc>` with query and fragment survives
extraction and base-path filtering verbatim, and the orchestrator fetches the
un-normalized URL string in sitemap mode. -/
theorem c7_counterexample :
    extractSitemapUrls "<url><loc>https://x.com/docs/a?page=1#top</loc></url>"
      = [⟨"https", "x.com", "/docs/a", "?page=1", "#top"⟩] ∧
    (⟨"https", "x.com", "/docs/a", "?page=1", "#top"⟩ : URLm).search ≠ "" ∧
    (∃ s, crawlSitemap ⟨"docs", 2, 1, false, false⟩
        ⟨fun _ => FetchRes.ok "c", fun _ => true, fun _ => [], fun u => u ++ ".md"⟩
        (some "sm")
        (fun _ => Except.ok ((filterByBasePath (extractSitemapUrls
          "<url><loc>https://x.com/docs/a?page=1#top</loc></url>") "/docs/").map
            URLm.toStr))
        [0, 0] = Except.ok s ∧
      s.fetchLog = ["https://x.com/docs/a?page=1#top"]) := by
  refine ⟨rfl, by decide, ⟨_, rfl, rfl⟩⟩

/-- C7 amended: in link-follow mode every processed URL is normalized — the
extractor only emits `normalizePageUrl`-ed URLs (empty search and hash), and
any property shared by the entry URL and by all extracted links holds for
every fetched URL and every queued frontier entry.  In sitemap mode the
frontier takes the sitemap's `<loc>` URLs verbatim, which may carry query or
fragment (see the counterexample). -/
theorem c7_frontier_urls (cfg : CrawlCfg) (env : CrawlEnv) (entry : String)
    (sched : List Nat) (s : MSt) (P : String → Prop)
    (hlinks : ∀ v l, l ∈ env.links v → P l) (hentry : P entry)
    (h : crawlLinks cfg env entry sched = Except.ok s) :
    ((∀ u ∈ s.fetchLog, P u) ∧ (∀ it ∈ s.queue, P it.url)) ∧
    (∀ content base opts, ∀ u ∈ extractDocLinks content base opts,
      u.search = "" ∧ u.hash = "") := by
  refine ⟨?_, fun content base opts => extractDocLinks_normalized content base opts⟩
  have hinv : InvDepth cfg env entry s := by
    rw [crawlLinks] at h
    match hinit : initLink cfg env entry with
    | Except.error e => rw [hinit] at h; cases h
    | Except.ok s0 =>
      rw [hinit] at h
      simp only [Except.map] at h
      cases h
      refine invDepth_mrun cfg env entry s0 sched ?_
      match henv : env.fetch entry with
      | FetchRes.blocked reason => simp only [initLink, henv] at hinit; cases hinit
      | FetchRes.err m => simp only [initLink, henv] at hinit; cases hinit
      | FetchRes.ok c =>
        simp only [initLink, henv] at hinit
        split at hinit
        · cases hinit
          refine ⟨?_, ?_, ?_⟩
          · intro it hit
            simp only at hit
            split at hit
            · next hd =>
              rcases List.mem_map.mp hit with ⟨l, hl, rfl⟩
              rw [List.mem_filter] at hl
              exact ⟨le_refl 1, hd, Chain.succ Chain.zero hl.1⟩
            · cases hit
          · intro t htm
            cases htm
          · intro u hu
            simp only [List.mem_singleton] at hu
            subst hu
            exact ⟨0, Nat.zero_le _, Chain.zero⟩
        · cases hinit
  constructor
  · intro u hu
    obtain ⟨n, _, hc⟩ := hinv.2.2 u hu
    rcases chain_src env entry u n hc with h1 | ⟨v, h1⟩
    · exact h1 ▸ hentry
    · exact hlinks v u h1
  · intro it hit
    obtain ⟨_, _, hc⟩ := hinv.1 it hit
    rcases chain_src env entry it.url it.depth hc with h1 | ⟨v, h1⟩
    · exact h1 ▸ hentry
    · exact hlinks v it.url h1

/-- Witness for the C7 amended theorem on the fixture run. -/
theorem c7_frontier_urls_witness :
    ((∀ v l, l ∈ exEnvNum.links v → (l = "E" ∨ l = "A")) ∧
      ("E" = "E" ∨ "E" = "A") ∧
      crawlLinks exCfgNum exEnvNum "E" [0, 0, 0, 0] = Except.ok exStateNum) ∧
    (∀ u ∈ exStateNum.fetchLog, u = "E" ∨ u = "A") := by
  have hlinks : ∀ v l, l ∈ exEnvNum.links v → (l = "E" ∨ l = "A") := by
    intro v l hl
    simp only [exEnvNum] at hl
    split at hl
    · rw [List.mem_singleton] at hl
      exact Or.inr hl
    · cases hl
  refine ⟨⟨hlinks, Or.inl rfl, rfl⟩, ?_⟩
  exact ((c7_frontier_urls exCfgNum exEnvNum "E" [0, 0, 0, 0] exStateNum
    (fun u => u = "E" ∨ u = "A") hlinks (Or.inl rfl) rfl).1).1

/-! ### C6: adapter fallback chain -/

theorem fwfPlaywright_of_error (env : AdapterEnv) (errs : List (String × String))
    (msg : String) (h : fwfPlaywright env errs = Except.error msg) :
    ∃ e, env.playwrightRes = Except.error e := by
  match he : env.playwrightRes with
  | Except.ok c => rw [fwfPlaywright, he] at h; cases h
  | Except.error e => exact ⟨e, rfl⟩

theorem fwfJina_of_error (env : AdapterEnv) (opts : ChainOpts)
    (errs : List (String × String)) (msg : String)
    (h : fwfJina env opts errs = Except.error msg) :
    (opts.useJina = true → ∃ e, env.jinaRes = Except.error e) ∧
      ∃ e, env.playwrightRes = Except.error e := by
  by_cases hj : opts.useJina = true
  · rw [fwfJina, if_pos hj] at h
    match he : env.jinaRes with
    | Except.ok c => rw [he] at h; cases h
    | Except.error e =>
      rw [he] at h
      exact ⟨fun _ => ⟨e, rfl⟩, fwfPlaywright_of_error env _ msg h⟩
  · rw [fwfJina, if_neg hj] at h
    exact ⟨fun hc => absurd hc hj, fwfPlaywright_of_error env errs msg h⟩

theorem fwfMdx_of_error (env : AdapterEnv) (opts : ChainOpts)
    (errs : List (String × String)) (msg : String)
    (h : fwfMdx env opts errs = Except.error msg) :
    (mdxMatchHost env.hostname = true → ∃ e, env.mdxRes = Except.error e) ∧
      (opts.useJina = true → ∃ e, env.jinaRes = Except.error e) ∧
      ∃ e, env.playwrightRes = Except.error e := by
  by_cases hm : mdxMatchHost env.hostname = true
  · rw [fwfMdx, if_pos hm] at h
    match he : env.mdxRes with
    | Except.ok c => rw [he] at h; cases h
    | Except.error e =>
      rw [he] at h
      obtain ⟨hj, hp⟩ := fwfJina_of_error env opts _ msg h
      exact ⟨fun _ => ⟨e, rfl⟩, hj, hp⟩
  · rw [fwfMdx, if_neg hm] at h
    obtain ⟨hj, hp⟩ := fwfJina_of_error env opts errs msg h
    exact ⟨fun hc => absurd hc hm, hj, hp⟩

/-- C6: `fetchWithFallback` tries the applicable adapters in the fixed
priority order (md-endpoint when forced or allowlisted, mdx when matched,
jina when opted in, playwright always), returns the first success with that
adapter's name, errors only when every attempted adapter failed — with a
message listing each attempted adapter's name and error in order — and for an
allowlisted URL whose md endpoint answers with an HTML body (by content type
or by document markers) the md-endpoint step fails so the chain proceeds. -/
theorem c6_fetchWithFallback_chain (env : AdapterEnv) (opts : ChainOpts) :
    ((opts.useMdEndpoint || supportsMdEndpoint env.hostname) = true →
      ∀ c, env.mdEndpointRes = Except.ok c →
        fetchWithFallback env opts = Except.ok (c, "md-endpoint")) ∧
    (mdSkipOrFail env opts → mdxMatchHost env.hostname = true →
      ∀ c, env.mdxRes = Except.ok c →
        fetchWithFallback env opts = Except.ok (c, "mdx")) ∧
    (mdSkipOrFail env opts → mdxSkipOrFail env → opts.useJina = true →
      ∀ c, env.jinaRes = Except.ok c →
        fetchWithFallback env opts = Except.ok (c, "jina")) ∧
    (mdSkipOrFail env opts → mdxSkipOrFail env → jinaSkipOrFail env opts →
      ∀ c, env.playwrightRes = Except.ok c →
        fetchWithFallback env opts = Except.ok (c, "playwright")) ∧
    (mdSkipOrFail env opts → mdxSkipOrFail env → jinaSkipOrFail env opts →
      ∀ e, env.playwrightRes = Except.error e →
        fetchWithFallback env opts =
          Except.error (renderErrors env.urlStr (chainErrs env opts ++ [("playwright", e)]))) ∧
    (∀ msg, fetchWithFallback env opts = Except.error msg →
      (∃ e, env.playwrightRes = Except.error e) ∧
      ((opts.useMdEndpoint || supportsMdEndpoint env.hostname) = true →
        ∃ e, env.mdEndpointRes = Except.error e) ∧
      (mdxMatchHost env.hostname = true → ∃ e, env.mdxRes = Except.error e) ∧
      (opts.useJina = true → ∃ e, env.jinaRes = Except.error e)) ∧
    (∀ mdUrl res, res.ok = true →
      jsIncludes res.contentType "application/json" = false →
      (jsIncludes res.contentType "text/html" && !(jsIncludes res.contentType "text/markdown")) = true →
        fetchMdEndpointCheck mdUrl res =
          Except.error "Received HTML instead of Markdown (Content-Type)") ∧
    (∀ mdUrl res, res.ok = true →
      jsIncludes res.contentType "application/json" = false →
      (jsIncludes res.contentType "text/html" && !(jsIncludes res.contentType "text/markdown")) = false →
      jsStartsWith (jsToLower (jsTrim res.body)) "<!doctype" = true →
        fetchMdEndpointCheck mdUrl res =
          Except.error "Received HTML instead of Markdown") := by
  refine ⟨?_, ?_, ?_, ?_, ?_, ?_, ?_, ?_⟩
  · intro h c hc
    rw [fetchWithFallback, if_pos h, hc]
  · intro hmd hmatch c hc
    rcases hmd with h | ⟨e, he⟩
    · simp [fetchWithFallback, fwfMdx, *]
    · by_cases hTry : (opts.useMdEndpoint || supportsMdEndpoint env.hostname) = true <;>
        simp [fetchWithFallback, fwfMdx, *]
  · intro hmd hmdx hj c hc
    rcases hmd with h1 | ⟨e1, he1⟩ <;> rcases hmdx with h2 | ⟨e2, he2⟩ <;>
      by_cases hTry : (opts.useMdEndpoint || supportsMdEndpoint env.hostname) = true <;>
      by_cases hm : mdxMatchHost env.hostname = true <;>
      simp [fetchWithFallback, fwfMdx, fwfJina, *]
  · intro hmd hmdx hjina c hc
    rcases hmd with h1 | ⟨e1, he1⟩ <;> rcases hmdx with h2 | ⟨e2, he2⟩ <;>
      rcases hjina with h3 | ⟨e3, he3⟩ <;>
      by_cases hTry : (opts.useMdEndpoint || supportsMdEndpoint env.hostname) = true <;>
      by_cases hm : mdxMatchHost env.hostname = true <;>
      by_cases hj : opts.useJina = true <;>
      simp [fetchWithFallback, fwfMdx, fwfJina, fwfPlaywright, *]
  · intro hmd hmdx hjina e4 he4
    rcases hmd with h1 | ⟨e1, he1⟩ <;> rcases hmdx with h2 | ⟨e2, he2⟩ <;>
      rcases hjina with h3 | ⟨e3, he3⟩ <;>
      by_cases hTry : (opts.useMdEndpoint || supportsMdEndpoint env.hostname) = true <;>
      by_cases hm : mdxMatchHost env.hostname = true <;>
      by_cases hj : opts.useJina = true <;>
      simp [fetchWithFallback, fwfMdx, fwfJina, fwfPlaywright, chainErrs, *]
  · intro msg h
    by_cases hTry : (opts.useMdEndpoint || supportsMdEndpoint env.hostname) = true
    · rw [fetchWithFallback, if_pos hTry] at h
      match he : env.mdEndpointRes with
      | Except.ok c => rw [he] at h; cases h
      | Except.error e =>
        rw [he] at h
        obtain ⟨hm, hj, hp⟩ := fwfMdx_of_error env opts _ msg h
        exact ⟨hp, fun _ => ⟨e, rfl⟩, hm, hj⟩
    · rw [fetchWithFallback, if_neg hTry] at h
      obtain ⟨hm, hj, hp⟩ := fwfMdx_of_error env opts [] msg h
      exact ⟨hp, fun hc => absurd hc hTry, hm, hj⟩
  · intro mdUrl res hok hjson hhtml
    rw [fetchMdEndpointCheck, hok]
    rw [if_neg (by simp), if_neg (by rw [hjson]; simp), if_pos hhtml]
  · intro mdUrl res hok hjson hct hdoc
    rw [fetchMdEndpointCheck, hok]
    rw [if_neg (by simp), if_neg (by rw [hjson]; simp), if_neg (by rw [hct]; simp),
      if_pos (by rw [hdoc]; simp)]

/-- Witness for C6: a URL on the md-endpoint allowlist whose endpoint answers
HTML falls through to the mdx adapter. -/
theorem c6_fetchWithFallback_chain_witness :
    (mdSkipOrFail
        ⟨Except.error "Received HTML instead of Markdown", Except.ok "# Hi", Except.ok "j",
          Except.ok "p", "docs.anthropic.com", "https://docs.anthropic.com/docs/a"⟩
        ⟨false, false⟩ ∧
      mdxMatchHost "docs.anthropic.com" = true) ∧
    fetchWithFallback
        ⟨Except.error "Received HTML instead of Markdown", Except.ok "# Hi", Except.ok "j",
          Except.ok "p", "docs.anthropic.com", "https://docs.anthropic.com/docs/a"⟩
        ⟨false, false⟩ = Except.ok ("# Hi", "mdx") := by
  refine ⟨⟨Or.inr ⟨"Received HTML instead of Markdown", rfl⟩, by decide⟩, ?_⟩
  exact (c6_fetchWithFallback_chain
      ⟨Except.error "Received HTML instead of Markdown", Except.ok "# Hi", Except.ok "j",
        Except.ok "p", "docs.anthropic.com", "https://docs.anthropic.com/docs/a"⟩
      ⟨false, false⟩).2.1
    (Or.inr ⟨"Received HTML instead of Markdown", rfl⟩) (by decide) "# Hi" rfl

/-! ### C9: framework auto-detection -/

theorem foldl_weight_count (f : String → Bool) (w : Nat) (l : List String) :
    ∀ init : Nat,
      l.foldl (fun sc x => if f x then sc + w else sc) init
        = init + w * l.countP f := by
  induction l with
  | nil => intro init; simp
  | cons a t ih =>
      intro init
      cases hfa : f a <;>
        simp only [List.foldl_cons, List.countP_cons, hfa, Bool.false_eq_true,
          if_true, if_false, ite_true, ite_false] <;>
        rw [ih] <;> ring

theorem pageScore_eq_claimScore (env : PageEnv) (p : FrameworkPattern) :
    pageScore env p = claimScore env p := by
  unfold pageScore claimScore
  rw [foldl_weight_count, foldl_weight_count]
  ring

theorem maxFold_snd (l : List (String × Nat)) :
    ∀ m : String × Nat, (maxFold l m).2 = (l.map Prod.snd).foldl max m.2 := by
  induction l with
  | nil => intro m; rfl
  | cons e t ih =>
      intro m
      simp only [maxFold, List.map_cons, List.foldl_cons]
      rw [ih]
      congr 1
      by_cases h : e.2 > m.2
      · rw [if_pos h]; omega
      · rw [if_neg h]; omega

theorem maxFold_mem (l : List (String × Nat)) :
    ∀ m : String × Nat, maxFold l m = m ∨ maxFold l m ∈ l := by
  induction l with
  | nil => intro m; exact Or.inl rfl
  | cons e t ih =>
      intro m
      simp only [maxFold]
      rcases ih (if e.2 > m.2 then e else m) with h | h
      · rw [h]
        by_cases hc : e.2 > m.2
        · rw [if_pos hc]; right; exact List.mem_cons_self e t
        · rw [if_neg hc]; left; rfl
      · right; exact List.mem_cons_of_mem e h

theorem scoresAux_mem (env : PageEnv) (ps : List FrameworkPattern) :
    ∀ acc : List (String × Nat), ∀ e ∈ scoresAux env ps acc,
      e ∈ acc ∨ ∃ p, p ∈ ps ∧ e = (p.framework, pageScore env p)
        ∧ 0 < pageScore env p := by
  induction ps with
  | nil => intro acc e he; exact Or.inl he
  | cons p t ih =>
      intro acc e he
      simp only [scoresAux] at he
      rcases ih _ e he with h | ⟨q, hq, hqe, hqs⟩
      · by_cases hc : pageScore env p > 0
        · rw [if_pos hc] at h
          rcases List.mem_append.1 h with h1 | h1
          · exact Or.inl h1
          · right
            refine ⟨p, List.mem_cons_self p t, ?_, hc⟩
            simpa using h1
        · rw [if_neg hc] at h; exact Or.inl h
      · exact Or.inr ⟨q, List.mem_cons_of_mem p hq, hqe, hqs⟩

theorem scoresAux_max (env : PageEnv) (ps : List FrameworkPattern) :
    ∀ (acc : List (String × Nat)) (b : Nat),
      ((scoresAux env ps acc).map Prod.snd).foldl max b
        = (ps.map (pageScore env)).foldl max
            ((acc.map Prod.snd).foldl max b) := by
  induction ps with
  | nil => intro acc b; rfl
  | cons p t ih =>
      intro acc b
      simp only [scoresAux, List.map_cons, List.foldl_cons]
      rw [ih]
      congr 1
      by_cases hc : pageScore env p > 0
      · rw [if_pos hc]
        simp [List.map_append, List.foldl_append]
      · rw [if_neg hc]
        have h0 : pageScore env p = 0 := by omega
        rw [h0]
        omega

theorem maxEntry_pageScores_snd (env : PageEnv) :
    (maxEntry (pageScores env)).2 = specMaxScore env := by
  unfold maxEntry pageScores specMaxScore
  rw [maxFold_snd, scoresAux_max]
  simp only [List.map_nil, List.foldl_nil]
  have hmap : frameworkPatterns.map (pageScore env)
      = frameworkPatterns.map (claimScore env) :=
    List.map_congr_left fun p _ => pageScore_eq_claimScore env p
  rw [hmap]

theorem detect_fw_mem (env : PageEnv) :
    (detectFrameworkFromPage env).1 = "custom"
    ∨ ∃ p, p ∈ frameworkPatterns
        ∧ p.framework = (detectFrameworkFromPage env).1
        ∧ pageScore env p = (maxEntry (pageScores env)).2
        ∧ 0 < pageScore env p := by
  have hfst : (detectFrameworkFromPage env).1 = (maxEntry (pageScores env)).1 := rfl
  have hm : maxEntry (pageScores env) = ("custom", 0)
      ∨ maxEntry (pageScores env) ∈ pageScores env :=
    maxFold_mem (pageScores env) ("custom", 0)
  rcases hm with h | h
  · left; rw [hfst, h]
  · simp only [pageScores] at h
    rcases scoresAux_mem env frameworkPatterns [] _ h with h1 | ⟨p, hp, hpe, hps⟩
    · cases h1
    · right
      have hpe2 : maxEntry (pageScores env) = (p.framework, pageScore env p) := hpe
      refine ⟨p, hp, ?_, ?_, hps⟩
      · rw [hfst, hpe2]
      · rw [hpe2]

theorem frameworks_have_config :
    ∀ p ∈ frameworkPatterns,
      (getFrameworkConfigKey p.framework).isSome = true := by
  decide

/-- C9: detectFrameworkFromPage scores each known framework with CSS-selector
presence at full weight and markup-pattern matches at half weight; the
selected framework achieves the highest score (custom when nothing scored);
the confidence is the top score normalized to min(score / 30, 1), 0 when no
pattern scored; and playwrightAdapter substitutes the specialized framework
configuration if and only if the detected framework is not custom and its
confidence is at least 0.3 (every detectable framework has a __framework__
config entry, so the non-null check never blocks substitution). -/
theorem c9_framework_detection :
    (∀ env p, pageScore env p = claimScore env p)
    ∧ (∀ env, (detectFrameworkFromPage env).2
        = if 0 < specMaxScore env
          then min ((specMaxScore env : ℚ) / 30) 1 else 0)
    ∧ (∀ env, (detectFrameworkFromPage env).1 = "custom"
        ∨ ∃ p, p ∈ frameworkPatterns
            ∧ p.framework = (detectFrameworkFromPage env).1
            ∧ claimScore env p = specMaxScore env ∧ 0 < specMaxScore env)
    ∧ (∀ env, substitutesFrameworkConfig env = true
        ↔ ((detectFrameworkFromPage env).1 ≠ "custom"
            ∧ (3 : ℚ) / 10 ≤ (detectFrameworkFromPage env).2)) := by
  refine ⟨pageScore_eq_claimScore, ?_, ?_, ?_⟩
  · intro env
    have h := maxEntry_pageScores_snd env
    show (if (maxEntry (pageScores env)).2 > 0
      then min (((maxEntry (pageScores env)).2 : ℚ) / 30) 1 else 0) = _
    rw [h]
  · intro env
    rcases detect_fw_mem env with h | ⟨p, hp, hpf, hpscore, hpos⟩
    · exact Or.inl h
    · right
      have h2 := maxEntry_pageScores_snd env
      refine ⟨p, hp, hpf, ?_, ?_⟩
      · rw [← pageScore_eq_claimScore, hpscore, h2]
      · rw [← h2, ← hpscore]; exact hpos
  · intro env
    constructor
    · intro h
      simp only [substitutesFrameworkConfig, Bool.and_eq_true, bne_iff_ne,
        ne_eq, decide_eq_true_eq] at h
      exact ⟨h.1.1, h.1.2⟩
    · rintro ⟨h1, h2⟩
      simp only [substitutesFrameworkConfig, Bool.and_eq_true, bne_iff_ne,
        ne_eq, decide_eq_true_eq]
      refine ⟨⟨h1, h2⟩, ?_⟩
      rcases detect_fw_mem env with h | ⟨p, hp, hpf, _, _⟩
      · exact absurd h h1
      · rw [← hpf]
        exact frameworks_have_config p hp

end Preludex
